import Mathlib

/-!
Verification development for a GSCI-like commodity index calculator
(`gsci/index.py` together with `gsci/types.py`).

Modelling conventions:
* Python floats are modelled as exact rationals (`ℚ`).
* Dates are modelled post-canonicalization (`_to_date`) as integers (`ℤ`);
  the calculator only sorts and compares them.
* Python dicts are modelled as association lists; assignment replaces the
  first entry with the given key in place and otherwise appends (this is
  insertion-ordered dict semantics).  Lookups return the first match.
* The injected price provider may raise; it is modelled as a function into
  `Except String ℚ` (the `String` is the exception payload).  The other
  providers (cpw, mde, collateral) are modelled as total functions; claims
  about their exceptions are out of scope of the claim set.
* The price cache (`IndexState.price_cache`) is threaded explicitly through
  every price lookup, exactly where `_get_price` / `_safe_price` touch it.
-/

namespace GSCI

abbrev CommodityId := String

abbrev Date := Int

/-- A commodity-keyed map (Python `Mapping[CommodityId, float]`). -/
abbrev CMap := List (CommodityId × ℚ)

/-- The memoization cache keyed by `(date, commodity)`. -/
abbrev PriceCache := List ((Date × CommodityId) × ℚ)

/-- First-match lookup in an association list (Python `m[k]` / `m.get(k)`). -/
def mget {α β : Type} [DecidableEq α] : List (α × β) → α → Option β
  | [], _ => none
  | p :: rest, k => if p.1 = k then some p.2 else mget rest k

/-- Python `m.get(k, d)`. -/
def mgetD {α β : Type} [DecidableEq α] (m : List (α × β)) (k : α) (d : β) : β :=
  (mget m k).getD d

/-- Python dict assignment `m[k] = v`: replace the first entry with key `k`
in place, otherwise append at the end. -/
def mset {α β : Type} [DecidableEq α] : List (α × β) → α → β → List (α × β)
  | [], k, v => [(k, v)]
  | p :: rest, k, v => if p.1 = k then (k, v) :: rest else p :: mset rest k v

/-- The key list of an association list (Python `m.keys()`). -/
def mkeys {α β : Type} (m : List (α × β)) : List α := m.map Prod.fst

/-- Ordered union of two key lists (Python `set(a) | set(b)`, with a fixed
deterministic enumeration order; only membership matters downstream). -/
def unionList {α : Type} [DecidableEq α] (a b : List α) : List α :=
  a ++ b.filter (fun x => decide (x ∉ a))

/-- Sum of the values of an association list (Python `sum(m.values())`). -/
def sumVals {α : Type} (m : List (α × ℚ)) : ℚ := (m.map Prod.snd).sum

/-- Sum of `f` over a list (Python `sum(f(c) for c in l)`). -/
def sumOver {α : Type} (l : List α) (f : α → ℚ) : ℚ := (l.map f).sum

/-- `_normalize` (index.py lines 29-34): clamp negatives to 0; if the clamped
sum is `≤ 0` return the all-zero map on the same keys, else divide by the sum. -/
def normalize (weights : CMap) : CMap :=
  let nonneg := weights.map (fun p => (p.1, max 0 p.2))
  let s := sumVals nonneg
  if s ≤ 0 then nonneg.map (fun p => (p.1, (0 : ℚ)))
  else nonneg.map (fun p => (p.1, p.2 / s))

/-- `_maps_close` (index.py lines 37-44) at the default tolerance `1e-10`:
true iff every key of either map has values within the tolerance, an absent
key counting as `0`. -/
def mapsClose (a b : CMap) : Bool :=
  (unionList (mkeys a) (mkeys b)).all
    (fun k => decide (|mgetD a k 0 - mgetD b k 0| ≤ 1 / 10 ^ 10))

/-- `IndexMode` (types.py). -/
inductive IndexMode : Type
  | EXCESS_RETURN : IndexMode
  | TOTAL_RETURN : IndexMode
deriving DecidableEq

/-- `GSCIConfig` (index.py lines 47-50).  Python defaults are
`start_level = 100.0`, `mode = EXCESS_RETURN` (see `defaultConfig`). -/
structure GSCIConfig : Type where
  start_level : ℚ
  mode : IndexMode
deriving DecidableEq

/-- The Python dataclass defaults of `GSCIConfig`. -/
def defaultConfig : GSCIConfig := ⟨100, IndexMode.EXCESS_RETURN⟩

/-- `GSCIIndexCalculator.__init__`: the injected providers and config. -/
structure Calculator : Type where
  cpw : Date → CMap
  price : Date → CommodityId → Except String ℚ
  mde : Date → CommodityId → Bool
  collateral_rate : Option (Date → ℚ)
  config : GSCIConfig

/-- `IndexState` (types.py lines 39-52). -/
structure IndexState : Type where
  levels : List (Date × ℚ)
  weights : List (Date × CMap)
  quantities : List (Date × CMap)
  price_cache : PriceCache
deriving DecidableEq

/-- The errors `compute` can raise: the two explicit `ValueError`s, plus a
propagated price-provider exception. -/
inductive CalcError : Type
  | emptyDates : CalcError
  | trNeedsCollateral : CalcError
  | priceError : String → CalcError
deriving DecidableEq

/-- `_get_price` (index.py lines 199-203): memoized price lookup; a provider
exception propagates and leaves the cache unchanged. -/
def getPrice (cal : Calculator) (cache : PriceCache) (d : Date) (c : CommodityId) :
    Except String (ℚ × PriceCache) :=
  match mget cache (d, c) with
  | some v => Except.ok (v, cache)
  | none =>
    match cal.price d c with
    | Except.ok v => Except.ok (v, mset cache (d, c) v)
    | Except.error e => Except.error e

/-- `_safe_price` (index.py lines 205-210): like `_get_price` but any provider
exception is swallowed and the sentinel price `1.0` returned. -/
def safePrice (cal : Calculator) (cache : PriceCache) (d : Date) (c : CommodityId) :
    ℚ × PriceCache :=
  match getPrice cal cache d c with
  | Except.ok r => r
  | Except.error _ => (1, cache)

/-- Builds a price dict `{c: _get_price(state, d, c) for c in cs}`
(index.py lines 98, 116), threading the cache. -/
def getPrices (cal : Calculator) (d : Date) :
    List CommodityId → PriceCache → Except String (CMap × PriceCache)
  | [], cache => Except.ok ([], cache)
  | c :: rest, cache =>
    match getPrice cal cache d c with
    | Except.error e => Except.error e
    | Except.ok (v, cache1) =>
      match getPrices cal d rest cache1 with
      | Except.error e => Except.error e
      | Except.ok (m, cache2) => Except.ok ((c, v) :: m, cache2)

/-- The effective-price loop (index.py lines 119-122): for every previously
held commodity, fetch the date-`t` price (always, for its caching effect) and
freeze disrupted commodities at the previous price. -/
def getEffPrices (cal : Calculator) (t : Date) (p_prev : CMap) :
    List CommodityId → PriceCache → Except String (CMap × PriceCache)
  | [], cache => Except.ok ([], cache)
  | c :: rest, cache =>
    match getPrice cal cache t c with
    | Except.error e => Except.error e
    | Except.ok (p_t, cache1) =>
      match getEffPrices cal t p_prev rest cache1 with
      | Except.error e => Except.error e
      | Except.ok (m, cache2) =>
        Except.ok ((c, if cal.mde t c then mgetD p_prev c 0 else p_t) :: m, cache2)

/-- `prev_values` (index.py line 156):
`{c: quantities_prev.get(c, 0.0) * p_prev.get(c, safe_price(t_prev, c)) for c in all}`.
Python evaluates the `.get` default eagerly, so `_safe_price` is invoked (and
may touch the cache) for every commodity, even held ones. -/
def prevValues (cal : Calculator) (d : Date) (qprev pprev : CMap) :
    List CommodityId → PriceCache → CMap × PriceCache
  | [], cache => ([], cache)
  | c :: rest, cache =>
    let sp := safePrice cal cache d c
    let pc := match mget pprev c with
      | some v => v
      | none => sp.1
    let tail := prevValues cal d qprev pprev rest sp.2
    ((c, mgetD qprev c 0 * pc) :: tail.1, tail.2)

/-- The non-disrupted allocation loop (index.py lines 177-182), with the same
eager `_safe_price` default as `prev_values`. -/
def allocQuantities (cal : Calculator) (d : Date) (pprev target : CMap) (remaining : ℚ) :
    List CommodityId → PriceCache → CMap × PriceCache
  | [], cache => ([], cache)
  | c :: rest, cache =>
    let sp := safePrice cal cache d c
    let p_c_prev := match mget pprev c with
      | some v => v
      | none => sp.1
    let qty : ℚ := if p_c_prev = 0 then 0 else mgetD target c 0 * remaining / p_c_prev
    let tail := allocQuantities cal d pprev target remaining rest sp.2
    ((c, qty) :: tail.1, tail.2)

/-- The value map built inside `_weights_from_quantities` (index.py line 217). -/
def valueMap (quantities prices : CMap) : CMap :=
  (unionList (mkeys quantities) (mkeys prices)).map
    (fun c => (c, mgetD quantities c 0 * mgetD prices c 0))

/-- `_weights_from_quantities` (index.py lines 212-221). -/
def weightsFromQuantities (quantities prices : CMap) : CMap :=
  let values := valueMap quantities prices
  let total := sumVals values
  if total ≤ 0 then values.map (fun p => (p.1, (0 : ℚ)))
  else values.map (fun p => (p.1, p.2 / total))

/-- `level = float(initial_level or self.config.start_level)` (index.py line 93):
Python `or` falls back when `initial_level` is `None` or the falsy `0.0`. -/
def initLevel (initial_level : Option ℚ) (start_level : ℚ) : ℚ :=
  match initial_level with
  | none => start_level
  | some v => if v = 0 then start_level else v

/-- The total-return collateral adjustment (index.py lines 135-139): in
TOTAL_RETURN mode a missing collateral provider raises; otherwise the level
accrues one day of the `t_prev` collateral rate. -/
def trAdjust (cal : Calculator) (t_prev : Date) (level_new : ℚ) : Except CalcError ℚ :=
  match cal.config.mode with
  | IndexMode.EXCESS_RETURN => Except.ok level_new
  | IndexMode.TOTAL_RETURN =>
    match cal.collateral_rate with
    | none => Except.error CalcError.trNeedsCollateral
    | some f => Except.ok (level_new * (1 + f t_prev))

/-- The quantity update for date `t` (index.py lines 141-185): reconstitute if
the normalized CPW map changed (beyond `_maps_close` tolerance), else carry the
previous quantities forward. -/
def reconOrCarry (cal : Calculator) (t_prev t : Date) (quantities_prev p_prev : CMap)
    (cache : PriceCache) : CMap × PriceCache :=
  let cpw_prev := normalize (cal.cpw t_prev)
  let cpw_now := normalize (cal.cpw t)
  if mapsClose cpw_prev cpw_now then (quantities_prev, cache)
  else
    let disrupted := (unionList (mkeys cpw_prev) (mkeys cpw_now)).filter
      (fun c => cal.mde t c)
    let all_commodities := unionList (mkeys quantities_prev) (mkeys cpw_now)
    let pv := prevValues cal t_prev quantities_prev p_prev all_commodities cache
    let total_prev := sumVals pv.1
    let fixed_notional := (disrupted.map (fun c => mgetD pv.1 c 0)).sum
    let non_disrupted := all_commodities.filter (fun c => decide (c ∉ disrupted))
    let target := normalize (non_disrupted.map (fun c => (c, mgetD cpw_now c 0)))
    let remaining : ℚ := max (total_prev - fixed_notional) 0
    let frozen := disrupted.map (fun c => (c, mgetD quantities_prev c 0))
    let alloc := allocQuantities cal t_prev p_prev target remaining non_disrupted pv.2
    (frozen ++ alloc.1, alloc.2)

/-- One iteration of the date loop (index.py lines 112-194), from `t_prev` to
`t`, returning the new level, quantities, reported weights and cache. -/
def step (cal : Calculator) (t_prev t : Date) (level : ℚ) (quantities_prev : CMap)
    (cache : PriceCache) : Except CalcError (ℚ × CMap × CMap × PriceCache) :=
  match getPrices cal t_prev (mkeys quantities_prev) cache with
  | Except.error e => Except.error (CalcError.priceError e)
  | Except.ok (p_prev, cache1) =>
    match getEffPrices cal t p_prev (mkeys quantities_prev) cache1 with
    | Except.error e => Except.error (CalcError.priceError e)
    | Except.ok (p_eff_t, cache2) =>
      let value_prev := sumOver (mkeys quantities_prev)
        (fun c => mgetD quantities_prev c 0 * mgetD p_prev c 0)
      let er_return : ℚ :=
        if value_prev ≤ 0 then 0
        else sumOver (mkeys quantities_prev)
          (fun c => mgetD quantities_prev c 0 * mgetD p_eff_t c 0) / value_prev - 1
      let level_new := level * (1 + er_return)
      match trAdjust cal t_prev level_new with
      | Except.error e => Except.error e
      | Except.ok level_new2 =>
        let qc := reconOrCarry cal t_prev t quantities_prev p_prev cache2
        let weights_t := weightsFromQuantities qc.1 p_eff_t
        Except.ok (level_new2, qc.1, weights_t, qc.2)

/-- The date loop of `compute`: iterate `step` over consecutive pairs of the
sorted date list, recording level/quantities/weights per date.  The threaded
`qprev` equals `state.quantities[t_prev]` (the map most recently stored for
`t_prev`), which is what the Python loop reads back each iteration. -/
def runSteps (cal : Calculator) :
    List Date → Date → ℚ → CMap → IndexState → Except CalcError IndexState
  | [], _, _, _, st => Except.ok st
  | t :: rest, t_prev, level, qprev, st =>
    match step cal t_prev t level qprev st.price_cache with
    | Except.error e => Except.error e
    | Except.ok (level_new, qt, wt, cache) =>
      runSteps cal rest t level_new qt
        { levels := mset st.levels t level_new
          weights := mset st.weights t wt
          quantities := mset st.quantities t qt
          price_cache := cache }

/-- `GSCIIndexCalculator.compute` (index.py lines 83-196): raise on an empty
date sequence, sort the dates, bootstrap at `t0` from `CPW(t0)` and `t0`
prices, then iterate the date loop. -/
def compute (cal : Calculator) (dates : List Date) (initial_level : Option ℚ) :
    Except CalcError IndexState :=
  match List.insertionSort (· ≤ ·) dates with
  | [] => Except.error CalcError.emptyDates
  | t0 :: rest =>
    let level := initLevel initial_level cal.config.start_level
    let cpw_t0 := normalize (cal.cpw t0)
    match getPrices cal t0 (mkeys cpw_t0) [] with
    | Except.error e => Except.error (CalcError.priceError e)
    | Except.ok (p_t0, cache0) =>
      let quantities_t0 := cpw_t0.map (fun p =>
        (p.1, if mgetD p_t0 p.1 0 = 0 then 0 else p.2 * level / mgetD p_t0 p.1 0))
      let weights_t0 := weightsFromQuantities quantities_t0 p_t0
      runSteps cal rest t0 level quantities_t0
        { levels := [(t0, level)]
          weights := [(t0, weights_t0)]
          quantities := [(t0, quantities_t0)]
          price_cache := cache0 }

/-- Result accessor: did `compute` succeed? -/
def resOk (r : Except CalcError IndexState) : Bool :=
  match r with
  | Except.ok _ => true
  | Except.error _ => false

/-- Result accessor: the recorded quantity map at a date (empty if absent or
the run failed). -/
def resQ (r : Except CalcError IndexState) (d : Date) : CMap :=
  match r with
  | Except.ok st => (mget st.quantities d).getD []
  | Except.error _ => []

/-- Result accessor: the recorded quantity map at a date, as an option. -/
def resQMap (r : Except CalcError IndexState) (d : Date) : Option CMap :=
  match r with
  | Except.ok st => mget st.quantities d
  | Except.error _ => none

/-- Result accessor: the recorded weight map at a date, as an option. -/
def resWMap (r : Except CalcError IndexState) (d : Date) : Option CMap :=
  match r with
  | Except.ok st => mget st.weights d
  | Except.error _ => none

/-- Result accessor: the recorded level at a date. -/
def resLevel (r : Except CalcError IndexState) (d : Date) : Option ℚ :=
  match r with
  | Except.ok st => mget st.levels d
  | Except.error _ => none

/-- Result accessor: the date keys of `levels`. -/
def resLKeys (r : Except CalcError IndexState) : List Date :=
  match r with
  | Except.ok st => mkeys st.levels
  | Except.error _ => []

/-- Result accessor: the date keys of `weights`. -/
def resWKeys (r : Except CalcError IndexState) : List Date :=
  match r with
  | Except.ok st => mkeys st.weights
  | Except.error _ => []

/-- Result accessor: the date keys of `quantities`. -/
def resQKeys (r : Except CalcError IndexState) : List Date :=
  match r with
  | Except.ok st => mkeys st.quantities
  | Except.error _ => []

/-- `a` and `b` are consecutive members of the key list `K`: both present,
`a < b`, and no key strictly between. -/
def AdjIn (K : List Date) (a b : Date) : Prop :=
  a ∈ K ∧ b ∈ K ∧ a < b ∧ ∀ d ∈ K, ¬(a < d ∧ d < b)

/-- A price cache is well formed when every memoized entry is a value the
provider actually returns for that key; every cache arising in a run is. -/
def CacheWF (cal : Calculator) (cache : PriceCache) : Prop :=
  ∀ p ∈ cache, cal.price p.1.1 p.1.2 = Except.ok p.2

instance {ε α : Type} [DecidableEq ε] [DecidableEq α] : DecidableEq (Except ε α) :=
  fun x y =>
    match x, y with
    | Except.ok a, Except.ok b =>
      if h : a = b then isTrue (by rw [h]) else isFalse (by intro hh; cases hh; exact h rfl)
    | Except.ok _, Except.error _ => isFalse (by intro hh; cases hh)
    | Except.error _, Except.ok _ => isFalse (by intro hh; cases hh)
    | Except.error a, Except.error b =>
      if h : a = b then isTrue (by rw [h]) else isFalse (by intro hh; cases hh; exact h rfl)

instance : DecidableEq (ℚ × CMap × CMap × PriceCache) :=
  fun x y => inferInstanceAs (Decidable (x = y))

instance : DecidableEq (Except CalcError (ℚ × CMap × CMap × PriceCache)) :=
  fun x y => inferInstanceAs (Decidable (x = y))

instance (K : List Date) (a b : Date) : Decidable (AdjIn K a b) := by
  unfold AdjIn; infer_instance

instance (cal : Calculator) (cache : PriceCache) : Decidable (CacheWF cal cache) := by
  unfold CacheWF; infer_instance

/-- The provider price for a key, with the `_safe_price` sentinel `1.0`
standing in when the provider raises.  On every path of a successful run the
raising branch is never the one used for a held commodity, so this single
function describes every price the calculator consumes (see the
characterization lemmas below). -/
def priceVal (cal : Calculator) (d : Date) (c : CommodityId) : ℚ :=
  match cal.price d c with
  | Except.ok v => v
  | Except.error _ => 1

/-- The effective date-`t` price of the claims: frozen at the `t_prev` close
for a commodity disrupted at `t` (index.py line 122). -/
def specEffPrice (cal : Calculator) (t_prev t : Date) (c : CommodityId) : ℚ :=
  if cal.mde t c then priceVal cal t_prev c else priceVal cal t c

/-- The claims' `value_prev`: previous holdings valued at `t_prev` prices. -/
def specValuePrev (cal : Calculator) (t_prev : Date) (q : CMap) : ℚ :=
  sumOver (mkeys q) (fun c => mgetD q c 0 * priceVal cal t_prev c)

/-- The claims' `value_t`: previous holdings valued at effective prices. -/
def specValueEff (cal : Calculator) (t_prev t : Date) (q : CMap) : ℚ :=
  sumOver (mkeys q) (fun c => mgetD q c 0 * specEffPrice cal t_prev t c)

/-- The claims' `er_return`: `value_t / value_prev - 1`, and `0` whenever
`value_prev ≤ 0`. -/
def specERReturn (cal : Calculator) (t_prev t : Date) (q : CMap) : ℚ :=
  if specValuePrev cal t_prev q ≤ 0 then 0
  else specValueEff cal t_prev t q / specValuePrev cal t_prev q - 1

/-- The claims' collateral factor: `1 + collateral_rate(t_prev)` in
TOTAL_RETURN mode (the missing-provider case never yields a level), else 1. -/
def specCollFactor (cal : Calculator) (t_prev : Date) : ℚ :=
  match cal.config.mode with
  | IndexMode.EXCESS_RETURN => 1
  | IndexMode.TOTAL_RETURN =>
    match cal.collateral_rate with
    | none => 1
    | some f => 1 + f t_prev

/-- The disrupted set the CODE uses at a reconstitution from `t_prev` to `t`
(index.py line 150): commodities flagged by the provider among the keys of
the two normalized CPW maps only. -/
def reconDisrupted (cal : Calculator) (t_prev t : Date) : List CommodityId :=
  (unionList (mkeys (normalize (cal.cpw t_prev))) (mkeys (normalize (cal.cpw t)))).filter
    (fun c => cal.mde t c)

/-- The reconstitution universe (index.py line 153): previously held
commodities together with the keys of the new CPW map. -/
def reconUniverse (cal : Calculator) (t : Date) (q : CMap) : List CommodityId :=
  unionList (mkeys q) (mkeys (normalize (cal.cpw t)))

/-- A commodity's previous notional at a reconstitution, expressed through
provider prices (line 156, with the safe-price fallback folded in). -/
def reconPrevValue (cal : Calculator) (t_prev : Date) (q : CMap) (c : CommodityId) : ℚ :=
  mgetD q c 0 * priceVal cal t_prev c

/-- `total_prev` at a reconstitution (index.py line 157). -/
def reconTotalPrev (cal : Calculator) (t_prev t : Date) (q : CMap) : ℚ :=
  sumOver (reconUniverse cal t q) (fun c => reconPrevValue cal t_prev q c)

/-- `fixed_notional` (index.py line 160): previous notionals of the CODE's
disrupted set, an absent universe entry counting 0. -/
def reconFixed (cal : Calculator) (t_prev t : Date) (q : CMap) : ℚ :=
  sumOver (reconDisrupted cal t_prev t)
    (fun c => if c ∈ reconUniverse cal t q then reconPrevValue cal t_prev q c else 0)

/-- `non_disrupted` (index.py line 163). -/
def reconNonDisrupted (cal : Calculator) (t_prev t : Date) (q : CMap) : List CommodityId :=
  (reconUniverse cal t q).filter (fun c => decide (c ∉ reconDisrupted cal t_prev t))

/-- `target_non_disrupted` after renormalization (index.py lines 164-165). -/
def reconTarget (cal : Calculator) (t_prev t : Date) (q : CMap) : CMap :=
  normalize ((reconNonDisrupted cal t_prev t q).map
    (fun c => (c, mgetD (normalize (cal.cpw t)) c 0)))

/-- `remaining_notional` (index.py line 168). -/
def reconRemaining (cal : Calculator) (t_prev t : Date) (q : CMap) : ℚ :=
  max (reconTotalPrev cal t_prev t q - reconFixed cal t_prev t q) 0

/-- The new quantity of a non-disrupted commodity at a reconstitution
(index.py lines 177-182): target share of the remaining notional at the
`t_prev` price, `0` if that price is `0`. -/
def reconQty (cal : Calculator) (t_prev t : Date) (q : CMap) (c : CommodityId) : ℚ :=
  if priceVal cal t_prev c = 0 then 0
  else mgetD (reconTarget cal t_prev t q) c 0 * reconRemaining cal t_prev t q /
    priceVal cal t_prev c

/-- The full quantity map a reconstitution records (index.py lines 170-182):
frozen disrupted quantities first, then the reallocated non-disrupted ones. -/
def reconQuantities (cal : Calculator) (t_prev t : Date) (q : CMap) : CMap :=
  (reconDisrupted cal t_prev t).map (fun c => (c, mgetD q c 0)) ++
  (reconNonDisrupted cal t_prev t q).map (fun c => (c, reconQty cal t_prev t q c))

/-- Modelled from the spec: the disrupted set as claim C2 (spec section 4.5,
steps 1-2) describes it — every commodity of the reconstitution UNIVERSE that
the disruption provider flags on date `t`. -/
def claimDisrupted (cal : Calculator) (t : Date) (q : CMap) : List CommodityId :=
  (reconUniverse cal t q).filter (fun c => cal.mde t c)

/-- Modelled from the spec: `fixed_notional` over the claim's disrupted set. -/
def claimFixed (cal : Calculator) (t_prev t : Date) (q : CMap) : ℚ :=
  sumOver (claimDisrupted cal t q) (fun c => reconPrevValue cal t_prev q c)

/-- Modelled from the spec: the non-disrupted commodities per claim C2. -/
def claimNonDisrupted (cal : Calculator) (t : Date) (q : CMap) : List CommodityId :=
  (reconUniverse cal t q).filter (fun c => decide (c ∉ claimDisrupted cal t q))

/-- Modelled from the spec: target shares renormalized over the claim's
non-disrupted set. -/
def claimTarget (cal : Calculator) (t : Date) (q : CMap) : CMap :=
  normalize ((claimNonDisrupted cal t q).map
    (fun c => (c, mgetD (normalize (cal.cpw t)) c 0)))

/-- Modelled from the spec: `remaining_notional` per claim C2. -/
def claimRemaining (cal : Calculator) (t_prev t : Date) (q : CMap) : ℚ :=
  max (reconTotalPrev cal t_prev t q - claimFixed cal t_prev t q) 0

/-- Modelled from the spec: claim C2's prescribed quantity for a non-disrupted
commodity, `target_share[c] * remaining_notional / price_prev[c]` (0 on a zero
price). -/
def claimQty (cal : Calculator) (t_prev t : Date) (q : CMap) (c : CommodityId) : ℚ :=
  if priceVal cal t_prev c = 0 then 0
  else mgetD (claimTarget cal t q) c 0 * claimRemaining cal t_prev t q /
    priceVal cal t_prev c

/-- A three-date counterexample run: commodity B is held with a nonzero
quantity and flagged disrupted on the reconstitution date 2, but B appears in
neither the previous nor the new CPW map, so the code treats it as
non-disrupted and zeroes it out instead of freezing it. -/
def cexCal : Calculator :=
  { cpw := fun d =>
      if d = 0 then [("A", 1/2), ("B", 1/2)]
      else if d = 1 then [("A", 1)]
      else [("A", 1/2), ("C", 1/2)]
    price := fun _ _ => Except.ok 1
    mde := fun d c => decide (1 ≤ d ∧ c = "B")
    collateral_rate := none
    config := defaultConfig }

/-- Claim C2's Scenario C calculator: weights move from all-A to half-half
with A disrupted on the reconstitution date. -/
def scenCCal : Calculator :=
  { cpw := fun d => if d = 0 then [("A", 1)] else [("A", 1/2), ("B", 1/2)]
    price := fun _ _ => Except.ok 1
    mde := fun d c => decide (d = 1 ∧ c = "A")
    collateral_rate := none
    config := defaultConfig }

/-- Claim C3's Scenario B calculator: TOTAL_RETURN mode, flat unit prices, no
disruption, constant target weights, constant collateral rate `0.0001`. -/
def scTRCal : Calculator :=
  { cpw := fun _ => [("A", 1)]
    price := fun _ _ => Except.ok 1
    mde := fun _ _ => false
    collateral_rate := some (fun _ => 1/10000)
    config := ⟨100, IndexMode.TOTAL_RETURN⟩ }

/-- A minimal healthy calculator used to instantiate hypotheses in witnesses:
constant weights over two commodities, flat prices, no disruption. -/
def wCal : Calculator :=
  { cpw := fun _ => [("A", 1/2), ("B", 1/2)]
    price := fun _ _ => Except.ok 2
    mde := fun _ _ => false
    collateral_rate := none
    config := defaultConfig }

/-- A calculator whose price provider always raises. -/
def failCal : Calculator :=
  { cpw := fun _ => [("A", 1)]
    price := fun _ _ => Except.error "boom"
    mde := fun _ _ => false
    collateral_rate := none
    config := defaultConfig }

/-- A two-date run in which commodity B is disrupted on the reconstitution
date and appears in the previous CPW map, so its holding must be frozen. -/
def wFreezeCal : Calculator :=
  { cpw := fun d => if d = 0 then [("A", 1/2), ("B", 1/2)] else [("A", 1)]
    price := fun _ _ => Except.ok 1
    mde := fun d c => decide (d = 1 ∧ c = "B")
    collateral_rate := none
    config := defaultConfig }

/-- A TOTAL_RETURN calculator with no collateral provider configured. -/
def trNoCollCal : Calculator :=
  { cpw := fun _ => [("A", 1)]
    price := fun _ _ => Except.ok 1
    mde := fun _ _ => false
    collateral_rate := none
    config := ⟨100, IndexMode.TOTAL_RETURN⟩ }

/-! ### Association-list lemmas -/

theorem mget_mapSelf {α β : Type} [DecidableEq α] (l : List α) (f : α → β) (x : α) :
    mget (l.map (fun c => (c, f c))) x = if x ∈ l then some (f x) else none := by
  induction l with
  | nil => simp [mget]
  | cons c rest ih =>
    simp only [List.map_cons, mget]
    by_cases hc : c = x
    · subst hc
      simp
    · rw [if_neg hc, ih]
      by_cases hx : x ∈ rest
      · rw [if_pos hx, if_pos (List.mem_cons_of_mem _ hx)]
      · rw [if_neg hx, if_neg ?_]
        intro hh
        rcases List.mem_cons.mp hh with h1 | h2
        · exact hc h1.symm
        · exact hx h2

theorem mgetD_mapSelf {α : Type} [DecidableEq α] (l : List α) (f : α → ℚ) (x : α) (d : ℚ) :
    mgetD (l.map (fun c => (c, f c))) x d = if x ∈ l then f x else d := by
  unfold mgetD
  rw [mget_mapSelf]
  by_cases h : x ∈ l <;> simp [h]

theorem mget_mset_self {α β : Type} [DecidableEq α] (m : List (α × β)) (k : α) (v : β) :
    mget (mset m k v) k = some v := by
  induction m with
  | nil => simp [mget, mset]
  | cons p rest ih =>
    by_cases h : p.1 = k
    · simp [mset, h, mget]
    · simp [mset, h, mget, ih]

theorem mget_mset_ne {α β : Type} [DecidableEq α] (m : List (α × β)) (k x : α) (v : β)
    (hx : x ≠ k) : mget (mset m k v) x = mget m x := by
  induction m with
  | nil =>
    simp only [mset, mget]
    rw [if_neg (fun hh => hx hh.symm)]
  | cons p rest ih =>
    by_cases h : p.1 = k
    · rw [show mset (p :: rest) k v = (k, v) :: rest from by simp [mset, h]]
      simp only [mget]
      rw [if_neg (fun hh => hx hh.symm), if_neg (fun hh => hx ((h.symm.trans hh).symm))]
    · rw [show mset (p :: rest) k v = p :: mset rest k v from by simp [mset, h]]
      simp only [mget, ih]

theorem mkeys_cons {α β : Type} (p : α × β) (l : List (α × β)) :
    mkeys (p :: l) = p.1 :: mkeys l := rfl

theorem mkeys_mset {α β : Type} [DecidableEq α] (m : List (α × β)) (k : α) (v : β) :
    mkeys (mset m k v) = if k ∈ mkeys m then mkeys m else mkeys m ++ [k] := by
  induction m with
  | nil => simp [mset, mkeys]
  | cons p rest ih =>
    by_cases h : p.1 = k
    · rw [show mset (p :: rest) k v = (k, v) :: rest from by simp [mset, h]]
      rw [if_pos (by rw [mkeys_cons, ← h]; exact List.mem_cons_self _ _)]
      rw [mkeys_cons, mkeys_cons, h]
    · rw [show mset (p :: rest) k v = p :: mset rest k v from by simp [mset, h]]
      rw [mkeys_cons, ih, mkeys_cons]
      by_cases hk : k ∈ mkeys rest
      · rw [if_pos hk, if_pos (List.mem_cons_of_mem _ hk)]
      · rw [if_neg hk, if_neg ?_, List.cons_append]
        intro hh
        rcases List.mem_cons.mp hh with h1 | h2
        · exact h h1.symm
        · exact hk h2

theorem mem_of_mem_mset {α β : Type} [DecidableEq α] (m : List (α × β)) (k : α) (v : β)
    (p : α × β) (hp : p ∈ mset m k v) : p ∈ m ∨ p = (k, v) := by
  induction m with
  | nil => simp [mset] at hp; exact Or.inr hp
  | cons q rest ih =>
    by_cases h : q.1 = k
    · simp only [mset, h, if_true, List.mem_cons] at hp
      rcases hp with hp | hp
      · exact Or.inr hp
      · exact Or.inl (List.mem_cons_of_mem _ hp)
    · simp only [mset, h, if_false, List.mem_cons] at hp
      rcases hp with hp | hp
      · exact Or.inl (by simp [hp])
      · rcases ih hp with hh | hh
        · exact Or.inl (List.mem_cons_of_mem _ hh)
        · exact Or.inr hh

theorem mget_append {α β : Type} [DecidableEq α] (l1 l2 : List (α × β)) (x : α) :
    mget (l1 ++ l2) x =
      match mget l1 x with
      | some v => some v
      | none => mget l2 x := by
  induction l1 with
  | nil => simp [mget]
  | cons p rest ih =>
    by_cases h : p.1 = x
    · simp [mget, h]
    · simp [mget, h, ih]

theorem mem_unionList {α : Type} [DecidableEq α] (a b : List α) (x : α) :
    x ∈ unionList a b ↔ x ∈ a ∨ x ∈ b := by
  unfold unionList
  simp only [List.mem_append, List.mem_filter, decide_eq_true_eq]
  constructor
  · rintro (h | ⟨h, _⟩)
    · exact Or.inl h
    · exact Or.inr h
  · rintro (h | h)
    · exact Or.inl h
    · by_cases ha : x ∈ a
      · exact Or.inl ha
      · exact Or.inr ⟨h, ha⟩

theorem sumOver_congr {α : Type} {l : List α} {f g : α → ℚ}
    (h : ∀ x ∈ l, f x = g x) : sumOver l f = sumOver l g := by
  unfold sumOver
  rw [List.map_congr_left h]

theorem sumVals_mapSelf {α : Type} (l : List α) (f : α → ℚ) :
    sumVals (l.map (fun c => (c, f c))) = sumOver l f := by
  unfold sumVals sumOver
  rw [List.map_map]
  rfl

theorem sumOver_div {α : Type} (l : List α) (f : α → ℚ) (T : ℚ) :
    sumOver l (fun c => f c / T) = sumOver l f / T := by
  induction l with
  | nil => simp [sumOver]
  | cons c rest ih => simp [sumOver, add_div] at ih ⊢; rw [ih]

theorem mapsClose_refl (m : CMap) : mapsClose m m = true := by
  unfold mapsClose
  rw [List.all_eq_true]
  intro k _
  simp

theorem mkeys_map_pair {α β γ : Type} (l : List (α × β)) (f : α × β → γ) :
    mkeys (l.map (fun p => (p.1, f p))) = mkeys l := by
  unfold mkeys
  rw [List.map_map]
  rfl

theorem mkeys_normalize (m : CMap) : mkeys (normalize m) = mkeys m := by
  unfold normalize
  by_cases h : sumVals (m.map fun p => (p.1, max 0 p.2)) ≤ 0 <;>
    simp only [h, if_true, if_false] <;>
    rw [mkeys_map_pair, mkeys_map_pair]

theorem mget_some_mem {α β : Type} [DecidableEq α] (m : List (α × β)) (k : α) (v : β)
    (h : mget m k = some v) : (k, v) ∈ m := by
  induction m with
  | nil => simp [mget] at h
  | cons p rest ih =>
    by_cases hp : p.1 = k
    · rw [mget, if_pos hp] at h
      have hv : p.2 = v := by injection h
      have : p = (k, v) := Prod.ext hp hv
      rw [← this]
      exact List.mem_cons_self _ _
    · rw [mget, if_neg hp] at h
      exact List.mem_cons_of_mem _ (ih h)

/-! ### Price-cache characterization lemmas -/

theorem cacheWF_nil (cal : Calculator) : CacheWF cal [] := by
  intro p hp
  simp at hp

theorem getPrice_ok (cal : Calculator) (cache : PriceCache) (d : Date) (c : CommodityId)
    (v : ℚ) (cache' : PriceCache) (hwf : CacheWF cal cache)
    (h : getPrice cal cache d c = Except.ok (v, cache')) :
    cal.price d c = Except.ok v ∧ CacheWF cal cache' := by
  unfold getPrice at h
  rcases hm : mget cache (d, c) with _ | v0
  · rw [hm] at h
    rcases hp : cal.price d c with e | v1
    · rw [hp] at h; cases h
    · rw [hp] at h
      simp only [Except.ok.injEq, Prod.mk.injEq] at h
      obtain ⟨h1, h2⟩ := h
      constructor
      · rw [h1]
      · rw [← h2]
        intro p hp2
        rcases mem_of_mem_mset _ _ _ _ hp2 with hin | heq
        · exact hwf p hin
        · rw [heq]
          exact hp
  · rw [hm] at h
    simp only [Except.ok.injEq, Prod.mk.injEq] at h
    obtain ⟨h1, h2⟩ := h
    exact ⟨h1 ▸ hwf ((d, c), v0) (mget_some_mem _ _ _ hm), h2 ▸ hwf⟩

theorem getPrice_ok_val (cal : Calculator) (cache : PriceCache) (d : Date) (c : CommodityId)
    (v : ℚ) (cache' : PriceCache) (hwf : CacheWF cal cache)
    (h : getPrice cal cache d c = Except.ok (v, cache')) : v = priceVal cal d c := by
  have hp := (getPrice_ok cal cache d c v cache' hwf h).1
  unfold priceVal
  rw [hp]

theorem getPrice_error (cal : Calculator) (cache : PriceCache) (d : Date) (c : CommodityId)
    (e : String) (h : getPrice cal cache d c = Except.error e) :
    cal.price d c = Except.error e := by
  unfold getPrice at h
  rcases hm : mget cache (d, c) with _ | v0
  · rw [hm] at h
    rcases hp : cal.price d c with e1 | v1
    · rw [hp] at h
      injection h with h1
      rw [h1]
    · rw [hp] at h; cases h
  · rw [hm] at h; cases h

theorem safePrice_fst (cal : Calculator) (cache : PriceCache) (d : Date) (c : CommodityId)
    (hwf : CacheWF cal cache) : (safePrice cal cache d c).1 = priceVal cal d c := by
  unfold safePrice
  rcases hg : getPrice cal cache d c with e | r
  · have := getPrice_error cal cache d c e hg
    unfold priceVal
    rw [this]
  · exact getPrice_ok_val cal cache d c r.1 r.2 hwf (by rw [hg]) |>.symm ▸ rfl

theorem safePrice_wf (cal : Calculator) (cache : PriceCache) (d : Date) (c : CommodityId)
    (hwf : CacheWF cal cache) : CacheWF cal (safePrice cal cache d c).2 := by
  unfold safePrice
  rcases hg : getPrice cal cache d c with e | r
  · exact hwf
  · exact (getPrice_ok cal cache d c r.1 r.2 hwf (by rw [hg])).2

theorem getPrices_ok (cal : Calculator) (d : Date) :
    ∀ (cs : List CommodityId) (cache : PriceCache) (m : CMap) (cache' : PriceCache),
    CacheWF cal cache → getPrices cal d cs cache = Except.ok (m, cache') →
    m = cs.map (fun c => (c, priceVal cal d c)) ∧ CacheWF cal cache' := by
  intro cs
  induction cs with
  | nil =>
    intro cache m cache' hwf h
    unfold getPrices at h
    simp only [Except.ok.injEq, Prod.mk.injEq] at h
    obtain ⟨h1, h2⟩ := h
    subst h1
    subst h2
    exact ⟨by simp, hwf⟩
  | cons c rest ih =>
    intro cache m cache' hwf h
    unfold getPrices at h
    rcases hg : getPrice cal cache d c with e | ⟨v, cache1⟩
    · rw [hg] at h; cases h
    · rw [hg] at h
      have hval := getPrice_ok_val cal cache d c v cache1 hwf hg
      have hwf1 := (getPrice_ok cal cache d c v cache1 hwf hg).2
      dsimp only at h
      rcases hrest : getPrices cal d rest cache1 with e | ⟨m2, cache2⟩
      · rw [hrest] at h; cases h
      · rw [hrest] at h
        have hr2 := ih cache1 m2 cache2 hwf1 hrest
        dsimp only at h
        simp only [Except.ok.injEq, Prod.mk.injEq] at h
        obtain ⟨h1, h2⟩ := h
        subst h1
        subst h2
        refine ⟨?_, hr2.2⟩
        rw [List.map_cons, ← hval, hr2.1]

theorem getEffPrices_ok (cal : Calculator) (t dp : Date) (pprev : CMap) :
    ∀ (cs : List CommodityId) (cache : PriceCache) (m : CMap) (cache' : PriceCache),
    CacheWF cal cache →
    (∀ c ∈ cs, mgetD pprev c 0 = priceVal cal dp c) →
    getEffPrices cal t pprev cs cache = Except.ok (m, cache') →
    m = cs.map (fun c => (c, specEffPrice cal dp t c)) ∧ CacheWF cal cache' := by
  intro cs
  induction cs with
  | nil =>
    intro cache m cache' hwf _ h
    unfold getEffPrices at h
    simp only [Except.ok.injEq, Prod.mk.injEq] at h
    obtain ⟨h1, h2⟩ := h
    subst h1
    subst h2
    exact ⟨by simp, hwf⟩
  | cons c rest ih =>
    intro cache m cache' hwf hpp h
    unfold getEffPrices at h
    rcases hg : getPrice cal cache t c with e | ⟨v, cache1⟩
    · rw [hg] at h; cases h
    · rw [hg] at h
      have hval := getPrice_ok_val cal cache t c v cache1 hwf hg
      have hwf1 := (getPrice_ok cal cache t c v cache1 hwf hg).2
      dsimp only at h
      rcases hrest : getEffPrices cal t pprev rest cache1 with e | ⟨m2, cache2⟩
      · rw [hrest] at h; cases h
      · rw [hrest] at h
        have hr2 := ih cache1 m2 cache2 hwf1
          (fun c2 hc2 => hpp c2 (List.mem_cons_of_mem _ hc2)) hrest
        dsimp only at h
        simp only [Except.ok.injEq, Prod.mk.injEq] at h
        obtain ⟨h1, h2⟩ := h
        subst h1
        subst h2
        refine ⟨?_, hr2.2⟩
        rw [List.map_cons, hr2.1]
        have hhead : (if cal.mde t c = true then mgetD pprev c 0 else v) =
            specEffPrice cal dp t c := by
          unfold specEffPrice
          by_cases hmde : cal.mde t c = true
          · rw [if_pos hmde, if_pos hmde, hpp c (List.mem_cons_self _ _)]
          · rw [if_neg hmde, if_neg hmde]
            exact hval
        rw [hhead]

theorem prevValues_char (cal : Calculator) (d : Date) (qprev pprev : CMap)
    (hpp : ∀ c v, mget pprev c = some v → v = priceVal cal d c) :
    ∀ (cs : List CommodityId) (cache : PriceCache), CacheWF cal cache →
    (prevValues cal d qprev pprev cs cache).1 =
      cs.map (fun c => (c, mgetD qprev c 0 * priceVal cal d c)) ∧
    CacheWF cal (prevValues cal d qprev pprev cs cache).2 := by
  intro cs
  induction cs with
  | nil =>
    intro cache hwf
    exact ⟨rfl, hwf⟩
  | cons c rest ih =>
    intro cache hwf
    have hsp1 := safePrice_fst cal cache d c hwf
    have hsp2 := safePrice_wf cal cache d c hwf
    have hrec := ih (safePrice cal cache d c).2 hsp2
    unfold prevValues
    refine ⟨?_, hrec.2⟩
    rw [List.map_cons]
    dsimp only
    rw [hrec.1]
    have hpc : (match mget pprev c with
        | some v => v
        | none => (safePrice cal cache d c).1) = priceVal cal d c := by
      rcases hm : mget pprev c with _ | v
      · exact hsp1
      · exact hpp c v hm
    rw [hpc]

theorem allocQuantities_char (cal : Calculator) (d : Date) (pprev target : CMap)
    (remaining : ℚ)
    (hpp : ∀ c v, mget pprev c = some v → v = priceVal cal d c) :
    ∀ (cs : List CommodityId) (cache : PriceCache), CacheWF cal cache →
    (allocQuantities cal d pprev target remaining cs cache).1 =
      cs.map (fun c => (c, if priceVal cal d c = 0 then 0
        else mgetD target c 0 * remaining / priceVal cal d c)) ∧
    CacheWF cal (allocQuantities cal d pprev target remaining cs cache).2 := by
  intro cs
  induction cs with
  | nil =>
    intro cache hwf
    exact ⟨rfl, hwf⟩
  | cons c rest ih =>
    intro cache hwf
    have hsp1 := safePrice_fst cal cache d c hwf
    have hsp2 := safePrice_wf cal cache d c hwf
    have hrec := ih (safePrice cal cache d c).2 hsp2
    unfold allocQuantities
    refine ⟨?_, hrec.2⟩
    rw [List.map_cons]
    dsimp only
    rw [hrec.1]
    have hpc : (match mget pprev c with
        | some v => v
        | none => (safePrice cal cache d c).1) = priceVal cal d c := by
      rcases hm : mget pprev c with _ | v
      · exact hsp1
      · exact hpp c v hm
    rw [hpc]

/-! ### Characterization of the reconstitution-or-carry update -/

theorem reconOrCarry_carry (cal : Calculator) (a b : Date) (q p_prev : CMap)
    (cache : PriceCache)
    (hc : mapsClose (normalize (cal.cpw a)) (normalize (cal.cpw b)) = true) :
    reconOrCarry cal a b q p_prev cache = (q, cache) := by
  unfold reconOrCarry
  rw [if_pos hc]

theorem reconOrCarry_recon (cal : Calculator) (a b : Date) (q p_prev : CMap)
    (cache : PriceCache) (hwf : CacheWF cal cache)
    (hpp : ∀ c v, mget p_prev c = some v → v = priceVal cal a c)
    (hc : mapsClose (normalize (cal.cpw a)) (normalize (cal.cpw b)) = false) :
    (reconOrCarry cal a b q p_prev cache).1 = reconQuantities cal a b q ∧
    CacheWF cal (reconOrCarry cal a b q p_prev cache).2 := by
  unfold reconOrCarry
  rw [if_neg (by rw [hc]; exact Bool.false_ne_true)]
  dsimp only
  have hPV := prevValues_char cal a q p_prev hpp
    (unionList (mkeys q) (mkeys (normalize (cal.cpw b)))) cache hwf
  rw [hPV.1]
  have hAL := allocQuantities_char cal a p_prev
    (normalize
      (List.map (fun c => (c, mgetD (normalize (cal.cpw b)) c 0))
        (List.filter
          (fun c =>
            decide
              (c ∉
                List.filter (fun c => cal.mde b c)
                  (unionList (mkeys (normalize (cal.cpw a))) (mkeys (normalize (cal.cpw b))))))
          (unionList (mkeys q) (mkeys (normalize (cal.cpw b)))))))
    (max
      (sumVals
          (List.map (fun c => (c, mgetD q c 0 * priceVal cal a c))
            (unionList (mkeys q) (mkeys (normalize (cal.cpw b))))) -
        (List.map
            (fun c =>
              mgetD
                (List.map (fun c => (c, mgetD q c 0 * priceVal cal a c))
                  (unionList (mkeys q) (mkeys (normalize (cal.cpw b)))))
                c 0)
            (List.filter (fun c => cal.mde b c)
              (unionList (mkeys (normalize (cal.cpw a))) (mkeys (normalize (cal.cpw b)))))).sum)
      0)
    hpp
    (List.filter
      (fun c =>
        decide
          (c ∉
            List.filter (fun c => cal.mde b c)
              (unionList (mkeys (normalize (cal.cpw a))) (mkeys (normalize (cal.cpw b))))))
      (unionList (mkeys q) (mkeys (normalize (cal.cpw b)))))
    (prevValues cal a q p_prev (unionList (mkeys q) (mkeys (normalize (cal.cpw b)))) cache).2
    hPV.2
  refine ⟨?_, hAL.2⟩
  rw [hAL.1]
  have hfix : (List.map
      (fun c =>
        mgetD
          (List.map (fun c => (c, mgetD q c 0 * priceVal cal a c))
            (unionList (mkeys q) (mkeys (normalize (cal.cpw b)))))
          c 0)
      (List.filter (fun c => cal.mde b c)
        (unionList (mkeys (normalize (cal.cpw a))) (mkeys (normalize (cal.cpw b)))))).sum =
      reconFixed cal a b q := by
    unfold reconFixed sumOver
    congr 1
    refine List.map_congr_left ?_
    intro c _
    rw [mgetD_mapSelf]
    rfl
  rw [hfix, sumVals_mapSelf]
  rfl

/-! ### The master step characterization -/

theorem step_ok_main (cal : Calculator) (a b : Date) (level : ℚ) (q : CMap)
    (cache : PriceCache) (lv : ℚ) (qt wt : CMap) (cache' : PriceCache)
    (hwf : CacheWF cal cache)
    (h : step cal a b level q cache = Except.ok (lv, qt, wt, cache')) :
    lv = level * (1 + specERReturn cal a b q) * specCollFactor cal a ∧
    (mapsClose (normalize (cal.cpw a)) (normalize (cal.cpw b)) = true → qt = q) ∧
    (mapsClose (normalize (cal.cpw a)) (normalize (cal.cpw b)) = false →
      qt = reconQuantities cal a b q) ∧
    (∃ pe, wt = weightsFromQuantities qt pe) ∧
    CacheWF cal cache' := by
  unfold step at h
  rcases hgp : getPrices cal a (mkeys q) cache with e | ⟨p_prev, cache1⟩
  · rw [hgp] at h; cases h
  · rw [hgp] at h
    obtain ⟨hpv, hwf1⟩ := getPrices_ok cal a (mkeys q) cache p_prev cache1 hwf hgp
    dsimp only at h
    have hppD : ∀ c ∈ mkeys q, mgetD p_prev c 0 = priceVal cal a c := by
      intro c hc
      rw [hpv, mgetD_mapSelf, if_pos hc]
    have hppS : ∀ c v, mget p_prev c = some v → v = priceVal cal a c := by
      intro c v hcv
      rw [hpv, mget_mapSelf] at hcv
      by_cases hc : c ∈ mkeys q
      · rw [if_pos hc] at hcv
        injection hcv with hh
        exact hh.symm
      · rw [if_neg hc] at hcv
        cases hcv
    rcases hge : getEffPrices cal b p_prev (mkeys q) cache1 with e | ⟨p_eff, cache2⟩
    · rw [hge] at h; cases h
    · rw [hge] at h
      obtain ⟨hpe, hwf2⟩ :=
        getEffPrices_ok cal b a p_prev (mkeys q) cache1 p_eff cache2 hwf1 hppD hge
      dsimp only at h
      have hvp : sumOver (mkeys q) (fun c => mgetD q c 0 * mgetD p_prev c 0) =
          specValuePrev cal a q := by
        unfold specValuePrev
        refine sumOver_congr ?_
        intro c hc
        rw [hppD c hc]
      have hve : sumOver (mkeys q) (fun c => mgetD q c 0 * mgetD p_eff c 0) =
          specValueEff cal a b q := by
        unfold specValueEff
        refine sumOver_congr ?_
        intro c hc
        rw [hpe, mgetD_mapSelf, if_pos hc]
      rw [hvp, hve] at h
      have hER : (if specValuePrev cal a q ≤ 0 then (0 : ℚ)
          else specValueEff cal a b q / specValuePrev cal a q - 1) =
          specERReturn cal a b q := rfl
      rw [hER] at h
      -- handle the carry-or-reconstitute update once
      have hQC : (reconOrCarry cal a b q p_prev cache2).1 = qt →
          CacheWF cal (reconOrCarry cal a b q p_prev cache2).2 ∧
          (mapsClose (normalize (cal.cpw a)) (normalize (cal.cpw b)) = true → qt = q) ∧
          (mapsClose (normalize (cal.cpw a)) (normalize (cal.cpw b)) = false →
            qt = reconQuantities cal a b q) := by
        intro hq
        rcases hB : mapsClose (normalize (cal.cpw a)) (normalize (cal.cpw b)) with _ | _
        · have hr := reconOrCarry_recon cal a b q p_prev cache2 hwf2 hppS hB
          refine ⟨hr.2, ?_, ?_⟩
          · intro hh
            exact Bool.noConfusion hh
          · intro _
            rw [← hq, hr.1]
        · have hr := reconOrCarry_carry cal a b q p_prev cache2 hB
          refine ⟨by rw [hr]; exact hwf2, ?_, ?_⟩
          · intro _
            rw [← hq, hr]
          · intro hh
            exact Bool.noConfusion hh
      rcases hm : cal.config.mode with _ | _
      · -- EXCESS_RETURN
        unfold trAdjust at h
        rw [hm] at h
        dsimp only at h
        simp only [Except.ok.injEq, Prod.mk.injEq] at h
        obtain ⟨h1, h2, h3, h4⟩ := h
        obtain ⟨hwfq, hcar, hrec⟩ := hQC h2
        refine ⟨?_, hcar, hrec, ⟨p_eff, by rw [← h3, ← h2]⟩, by rw [← h4]; exact hwfq⟩
        rw [← h1]
        unfold specCollFactor
        rw [hm, mul_one]
      · -- TOTAL_RETURN
        unfold trAdjust at h
        rw [hm] at h
        rcases hcr : cal.collateral_rate with _ | f
        · rw [hcr] at h
          dsimp only at h
          cases h
        · rw [hcr] at h
          dsimp only at h
          simp only [Except.ok.injEq, Prod.mk.injEq] at h
          obtain ⟨h1, h2, h3, h4⟩ := h
          obtain ⟨hwfq, hcar, hrec⟩ := hQC h2
          refine ⟨?_, hcar, hrec, ⟨p_eff, by rw [← h3, ← h2]⟩, by rw [← h4]; exact hwfq⟩
          rw [← h1]
          unfold specCollFactor
          rw [hm, hcr]

theorem step_ok_carry (cal : Calculator) (a b : Date) (level : ℚ) (q : CMap)
    (cache : PriceCache) (lv : ℚ) (qt wt : CMap) (cache' : PriceCache)
    (h : step cal a b level q cache = Except.ok (lv, qt, wt, cache'))
    (hB : mapsClose (normalize (cal.cpw a)) (normalize (cal.cpw b)) = true) :
    qt = q := by
  unfold step at h
  rcases hgp : getPrices cal a (mkeys q) cache with e | ⟨p_prev, cache1⟩
  · rw [hgp] at h; cases h
  · rw [hgp] at h
    dsimp only at h
    rcases hge : getEffPrices cal b p_prev (mkeys q) cache1 with e | ⟨p_eff, cache2⟩
    · rw [hge] at h; cases h
    · rw [hge] at h
      dsimp only at h
      rcases hta : trAdjust cal a _ with e | l2
      · rw [hta] at h
        cases h
      · rw [hta] at h
        dsimp only at h
        simp only [Except.ok.injEq, Prod.mk.injEq] at h
        obtain ⟨_, h2, _, _⟩ := h
        rw [← h2, reconOrCarry_carry cal a b q p_prev cache2 hB]

/-! ### Run-level lemmas -/

theorem mem_mkeys_mset {α β : Type} [DecidableEq α] (m : List (α × β)) (k : α) (v : β)
    (d : α) : d ∈ mkeys (mset m k v) ↔ d ∈ mkeys m ∨ d = k := by
  rw [mkeys_mset]
  by_cases hk : k ∈ mkeys m
  · rw [if_pos hk]
    constructor
    · exact Or.inl
    · rintro (hd | hd)
      · exact hd
      · rw [hd]; exact hk
  · rw [if_neg hk, List.mem_append]
    constructor
    · rintro (hd | hd)
      · exact Or.inl hd
      · exact Or.inr (List.mem_singleton.mp hd)
    · rintro (hd | hd)
      · exact Or.inl hd
      · exact Or.inr (List.mem_singleton.mpr hd)

theorem runSteps_frozen (cal : Calculator) :
    ∀ (rest : List Date) (t_prev : Date) (level : ℚ) (q : CMap) (st st' : IndexState)
    (x : Date), runSteps cal rest t_prev level q st = Except.ok st' →
    (∀ d ∈ rest, d ≠ x) →
    mget st'.levels x = mget st.levels x ∧ mget st'.weights x = mget st.weights x ∧
      mget st'.quantities x = mget st.quantities x := by
  intro rest
  induction rest with
  | nil =>
    intro t_prev level q st st' x h _
    unfold runSteps at h
    injection h with h1
    rw [← h1]
    exact ⟨rfl, rfl, rfl⟩
  | cons t rest' ih =>
    intro t_prev level q st st' x h hx
    unfold runSteps at h
    rcases hs : step cal t_prev t level q st.price_cache with e | ⟨lv, qt, wt, cache⟩
    · rw [hs] at h; cases h
    · rw [hs] at h
      dsimp only at h
      have htx : t ≠ x := hx t (List.mem_cons_self _ _)
      have hrec := ih t lv qt _ st' x h (fun d hd => hx d (List.mem_cons_of_mem _ hd))
      refine ⟨?_, ?_, ?_⟩
      · rw [hrec.1]
        exact mget_mset_ne _ _ _ _ (fun hh => htx hh.symm)
      · rw [hrec.2.1]
        exact mget_mset_ne _ _ _ _ (fun hh => htx hh.symm)
      · rw [hrec.2.2]
        exact mget_mset_ne _ _ _ _ (fun hh => htx hh.symm)

theorem runSteps_keys_mem (cal : Calculator) :
    ∀ (rest : List Date) (t_prev : Date) (level : ℚ) (q : CMap) (st st' : IndexState),
    runSteps cal rest t_prev level q st = Except.ok st' →
    ∀ d, d ∈ mkeys st'.quantities ↔ d ∈ mkeys st.quantities ∨ d ∈ rest := by
  intro rest
  induction rest with
  | nil =>
    intro t_prev level q st st' h d
    unfold runSteps at h
    injection h with h1
    rw [← h1]
    simp
  | cons t rest' ih =>
    intro t_prev level q st st' h d
    unfold runSteps at h
    rcases hs : step cal t_prev t level q st.price_cache with e | ⟨lv, qt, wt, cache⟩
    · rw [hs] at h; cases h
    · rw [hs] at h
      dsimp only at h
      rw [ih t lv qt _ st' h d]
      dsimp only
      rw [mem_mkeys_mset]
      constructor
      · rintro ((hd | hd) | hd)
        · exact Or.inl hd
        · exact Or.inr (by rw [hd]; exact List.mem_cons_self _ _)
        · exact Or.inr (List.mem_cons_of_mem _ hd)
      · rintro (hd | hd)
        · exact Or.inl (Or.inl hd)
        · rcases List.mem_cons.mp hd with hd1 | hd1
          · exact Or.inl (Or.inr hd1)
          · exact Or.inr hd1

theorem runSteps_lookup_self (cal : Calculator) :
    ∀ (rest : List Date) (t : Date) (level : ℚ) (q : CMap) (st st' : IndexState),
    runSteps cal rest t level q st = Except.ok st' →
    List.Sorted (· ≤ ·) (t :: rest) →
    mget st.quantities t = some q →
    mget st'.quantities t = some q := by
  intro rest
  induction rest with
  | nil =>
    intro t level q st st' h _ hq
    unfold runSteps at h
    injection h with h1
    rw [← h1]
    exact hq
  | cons t' rest' ih =>
    intro t level q st st' h hsort hq
    unfold runSteps at h
    rcases hs : step cal t t' level q st.price_cache with e | ⟨lv, qt, wt, cache⟩
    · rw [hs] at h; cases h
    · rw [hs] at h
      dsimp only at h
      have hsort' : List.Sorted (· ≤ ·) (t' :: rest') := (List.sorted_cons.mp hsort).2
      by_cases ht : t' = t
      · subst ht
        have hqt : qt = q := step_ok_carry cal t' t' level q st.price_cache lv qt wt cache hs
          (mapsClose_refl _)
        have : mget (mset st.quantities t' qt) t' = some qt := mget_mset_self _ _ _
        have hres := ih t' lv qt _ st' h hsort' (by dsimp only; exact this)
        rw [hres, hqt]
      · have htlt : t < t' := by
          rcases lt_or_eq_of_le ((List.sorted_cons.mp hsort).1 t' (List.mem_cons_self _ _))
            with hh | hh
          · exact hh
          · exact absurd hh.symm ht
        have hfr := runSteps_frozen cal rest' t' lv qt _ st' t h
          (fun d hd => by
            have := (List.sorted_cons.mp hsort').1 d hd
            exact fun hh => absurd (hh ▸ this) (not_le.mpr htlt))
        rw [hfr.2.2]
        dsimp only
        rw [mget_mset_ne _ _ _ _ (fun hh => ht hh.symm)]
        exact hq

/-- The spine of every adjacency claim: in a successful run, any two
consecutive recorded dates are joined by one successful `step` whose input
quantities are the map recorded at the earlier date and whose output
quantities are the map recorded at the later one, with a well-formed cache. -/
theorem runSteps_adjacent (cal : Calculator) :
    ∀ (rest : List Date) (t_prev : Date) (level : ℚ) (q : CMap) (st st' : IndexState),
    runSteps cal rest t_prev level q st = Except.ok st' →
    List.Sorted (· ≤ ·) (t_prev :: rest) →
    CacheWF cal st.price_cache →
    mget st.quantities t_prev = some q →
    (∀ d ∈ mkeys st.quantities, d ≤ t_prev) →
    ∀ a b, AdjIn (mkeys st'.quantities) a b → t_prev ≤ a →
      ∃ (la : ℚ) (qa qb : CMap) (cache cache' : PriceCache) (lb : ℚ) (wb : CMap),
        CacheWF cal cache ∧ mget st'.quantities a = some qa ∧
        mget st'.quantities b = some qb ∧
        step cal a b la qa cache = Except.ok (lb, qb, wb, cache') := by
  intro rest
  induction rest with
  | nil =>
    intro t_prev level q st st' h _ _ _ hbound a b hadj ha
    unfold runSteps at h
    injection h with h1
    subst h1
    obtain ⟨haK, hbK, hab, _⟩ := hadj
    have hae : a = t_prev := le_antisymm (hbound a haK) ha
    have : b ≤ t_prev := hbound b hbK
    exact absurd (hae ▸ hab) (not_lt.mpr this)
  | cons t rest' ih =>
    intro t_prev level q st st' h hsort hwf hq hbound a b hadj ha
    unfold runSteps at h
    rcases hs : step cal t_prev t level q st.price_cache with e | ⟨lv, qt, wt, cache⟩
    · rw [hs] at h; cases h
    · rw [hs] at h
      dsimp only at h
      have hmain := step_ok_main cal t_prev t level q st.price_cache lv qt wt cache hwf hs
      have hwfc : CacheWF cal cache := hmain.2.2.2.2
      have h_tp_t : t_prev ≤ t := (List.sorted_cons.mp hsort).1 t (List.mem_cons_self _ _)
      have hsort' : List.Sorted (· ≤ ·) (t :: rest') := (List.sorted_cons.mp hsort).2
      have hbound' : ∀ d ∈ mkeys (mset st.quantities t qt), d ≤ t := by
        intro d hd
        rcases (mem_mkeys_mset _ _ _ _).mp hd with hd1 | hd1
        · exact le_trans (hbound d hd1) h_tp_t
        · exact le_of_eq hd1
      by_cases hta : t ≤ a
      · exact ih t lv qt _ st' h hsort' hwfc (mget_mset_self _ _ _) hbound' a b hadj hta
      · have halt : a < t := not_le.mp hta
        obtain ⟨haK, hbK, hab, hbetween⟩ := hadj
        have hkeys := runSteps_keys_mem cal rest' t lv qt _ st' h
        -- a must be t_prev
        have haST : a ∈ mkeys st.quantities := by
          rcases (hkeys a).mp haK with h1 | h1
          · rcases (mem_mkeys_mset _ _ _ _).mp h1 with h2 | h2
            · exact h2
            · exact absurd h2 (ne_of_lt halt)
          · have := (List.sorted_cons.mp hsort').1 a h1
            exact absurd this (not_le.mpr halt)
        have hae : a = t_prev := le_antisymm (hbound a haST) ha
        -- t is a recorded key of the final state
        have htK : t ∈ mkeys st'.quantities := by
          rw [hkeys t]
          exact Or.inl ((mem_mkeys_mset _ _ _ _).mpr (Or.inr rfl))
        -- b must be t
        have hbe : b = t := by
          rcases lt_trichotomy b t with hh | hh | hh
          · exfalso
            rcases (hkeys b).mp hbK with h1 | h1
            · rcases (mem_mkeys_mset _ _ _ _).mp h1 with h2 | h2
              · have := hbound b h2
                rw [hae] at hab
                exact absurd hab (not_lt.mpr this)
              · exact absurd h2 (ne_of_lt hh)
            · have := (List.sorted_cons.mp hsort').1 b h1
              exact absurd this (not_le.mpr hh)
          · exact hh
          · exfalso
            exact hbetween t htK ⟨halt, hh⟩
        -- lookups in the final state
        have hfrozen := runSteps_frozen cal rest' t lv qt _ st' a h
          (fun d hd => by
            have := (List.sorted_cons.mp hsort').1 d hd
            exact fun hdEq => absurd (hdEq ▸ this) (not_le.mpr halt))
        have hlookA : mget st'.quantities a = some q := by
          rw [hfrozen.2.2]
          dsimp only
          rw [mget_mset_ne _ _ _ _ (ne_of_lt halt), hae]
          exact hq
        have hlookB : mget st'.quantities b = some qt := by
          rw [hbe]
          exact runSteps_lookup_self cal rest' t lv qt _ st' h hsort' (mget_mset_self _ _ _)
        refine ⟨level, q, qt, st.price_cache, cache, lv, wt, hwf, hlookA, hlookB, ?_⟩
        rw [hae, hbe]
        exact hs

/-- Bridge from `compute` to the adjacency spine. -/
theorem compute_adjacent (cal : Calculator) (dates : List Date) (init : Option ℚ)
    (st : IndexState) (h : compute cal dates init = Except.ok st) :
    ∀ a b, AdjIn (mkeys st.quantities) a b →
      ∃ (la : ℚ) (qa qb : CMap) (cache cache' : PriceCache) (lb : ℚ) (wb : CMap),
        CacheWF cal cache ∧ mget st.quantities a = some qa ∧
        mget st.quantities b = some qb ∧
        step cal a b la qa cache = Except.ok (lb, qb, wb, cache') := by
  unfold compute at h
  rcases hsd : List.insertionSort (· ≤ ·) dates with _ | ⟨t0, rest⟩
  · rw [hsd] at h; cases h
  · rw [hsd] at h
    dsimp only at h
    rcases hgp : getPrices cal t0 (mkeys (normalize (cal.cpw t0))) [] with e | ⟨p0, cache0⟩
    · rw [hgp] at h; cases h
    · rw [hgp] at h
      dsimp only at h
      have hwf0 : CacheWF cal cache0 :=
        (getPrices_ok cal t0 (mkeys (normalize (cal.cpw t0))) [] p0 cache0
          (cacheWF_nil cal) hgp).2
      have hsorted : List.Sorted (· ≤ ·) (t0 :: rest) := by
        rw [← hsd]
        exact List.sorted_insertionSort (· ≤ ·) dates
      intro a b hadj
      refine runSteps_adjacent cal rest t0 _ _ _ st h hsorted hwf0 (by simp [mget]) ?_
        a b hadj ?_
      · intro d hd
        simp only [mkeys, List.map_cons, List.map_nil, List.mem_singleton] at hd
        exact le_of_eq hd
      · have hkeys := runSteps_keys_mem cal rest t0 _ _ _ st h a
        rcases hkeys.mp hadj.1 with h1 | h1
        · simp only [mkeys, List.map_cons, List.map_nil, List.mem_singleton] at h1
          exact le_of_eq h1.symm
        · exact (List.sorted_cons.mp hsorted).1 a h1

/-- Levels spine for duplicate-free date lists: any two consecutive recorded
dates are joined by one successful `step` that maps the recorded level and
quantities at the earlier date to the recorded level and quantities at the
later one. -/
theorem runSteps_adjacent_lv (cal : Calculator) :
    ∀ (rest : List Date) (t_prev : Date) (level : ℚ) (q : CMap) (st st' : IndexState),
    runSteps cal rest t_prev level q st = Except.ok st' →
    List.Sorted (· < ·) (t_prev :: rest) →
    CacheWF cal st.price_cache →
    mget st.levels t_prev = some level →
    mget st.quantities t_prev = some q →
    (∀ d ∈ mkeys st.quantities, d ≤ t_prev) →
    ∀ a b, AdjIn (mkeys st'.quantities) a b → t_prev ≤ a →
      ∃ (la : ℚ) (qa qb : CMap) (cache cache' : PriceCache) (lb : ℚ) (wb : CMap),
        CacheWF cal cache ∧
        mget st'.levels a = some la ∧ mget st'.quantities a = some qa ∧
        mget st'.levels b = some lb ∧ mget st'.quantities b = some qb ∧
        step cal a b la qa cache = Except.ok (lb, qb, wb, cache') := by
  intro rest
  induction rest with
  | nil =>
    intro t_prev level q st st' h _ _ _ _ hbound a b hadj ha
    unfold runSteps at h
    injection h with h1
    subst h1
    obtain ⟨haK, hbK, hab, _⟩ := hadj
    have hae : a = t_prev := le_antisymm (hbound a haK) ha
    have : b ≤ t_prev := hbound b hbK
    exact absurd (hae ▸ hab) (not_lt.mpr this)
  | cons t rest' ih =>
    intro t_prev level q st st' h hsort hwf hlv hq hbound a b hadj ha
    unfold runSteps at h
    rcases hs : step cal t_prev t level q st.price_cache with e | ⟨lv, qt, wt, cache⟩
    · rw [hs] at h; cases h
    · rw [hs] at h
      dsimp only at h
      have hmain := step_ok_main cal t_prev t level q st.price_cache lv qt wt cache hwf hs
      have hwfc : CacheWF cal cache := hmain.2.2.2.2
      have h_tp_t : t_prev < t := (List.sorted_cons.mp hsort).1 t (List.mem_cons_self _ _)
      have hsort' : List.Sorted (· < ·) (t :: rest') := (List.sorted_cons.mp hsort).2
      have hbound' : ∀ d ∈ mkeys (mset st.quantities t qt), d ≤ t := by
        intro d hd
        rcases (mem_mkeys_mset _ _ _ _).mp hd with hd1 | hd1
        · exact le_trans (hbound d hd1) (le_of_lt h_tp_t)
        · exact le_of_eq hd1
      by_cases hta : t ≤ a
      · exact ih t lv qt _ st' h hsort' hwfc (mget_mset_self _ _ _) (mget_mset_self _ _ _)
          hbound' a b hadj hta
      · have halt : a < t := not_le.mp hta
        obtain ⟨haK, hbK, hab, hbetween⟩ := hadj
        have hkeys := runSteps_keys_mem cal rest' t lv qt _ st' h
        have haST : a ∈ mkeys st.quantities := by
          rcases (hkeys a).mp haK with h1 | h1
          · rcases (mem_mkeys_mset _ _ _ _).mp h1 with h2 | h2
            · exact h2
            · exact absurd h2 (ne_of_lt halt)
          · have := (List.sorted_cons.mp hsort').1 a h1
            exact absurd this (not_lt.mpr (le_of_lt halt))
        have hae : a = t_prev := le_antisymm (hbound a haST) ha
        have htK : t ∈ mkeys st'.quantities := by
          rw [hkeys t]
          exact Or.inl ((mem_mkeys_mset _ _ _ _).mpr (Or.inr rfl))
        have hbe : b = t := by
          rcases lt_trichotomy b t with hh | hh | hh
          · exfalso
            rcases (hkeys b).mp hbK with h1 | h1
            · rcases (mem_mkeys_mset _ _ _ _).mp h1 with h2 | h2
              · have := hbound b h2
                rw [hae] at hab
                exact absurd hab (not_lt.mpr this)
              · exact absurd h2 (ne_of_lt hh)
            · have := (List.sorted_cons.mp hsort').1 b h1
              exact absurd this (not_lt.mpr (le_of_lt hh))
          · exact hh
          · exfalso
            exact hbetween t htK ⟨halt, hh⟩
        have hne_prev : ∀ d ∈ rest', d ≠ a := by
          intro d hd hdEq
          have := (List.sorted_cons.mp hsort').1 d hd
          rw [hdEq] at this
          exact absurd this (not_lt.mpr (le_of_lt halt))
        have hne_t : ∀ d ∈ rest', d ≠ t := by
          intro d hd hdEq
          have := (List.sorted_cons.mp hsort').1 d hd
          rw [hdEq] at this
          exact absurd this (lt_irrefl t)
        have hfrozenA := runSteps_frozen cal rest' t lv qt _ st' a h hne_prev
        have hfrozenT := runSteps_frozen cal rest' t lv qt _ st' t h hne_t
        refine ⟨level, q, qt, st.price_cache, cache, lv, wt, hwf, ?_, ?_, ?_, ?_, ?_⟩
        · rw [hfrozenA.1]
          dsimp only
          rw [mget_mset_ne _ _ _ _ (ne_of_lt halt), hae]
          exact hlv
        · rw [hfrozenA.2.2]
          dsimp only
          rw [mget_mset_ne _ _ _ _ (ne_of_lt halt), hae]
          exact hq
        · rw [hbe, hfrozenT.1]
          dsimp only
          rw [mget_mset_self]
        · rw [hbe, hfrozenT.2.2]
          dsimp only
          rw [mget_mset_self]
        · rw [hae, hbe]
          exact hs

/-- Bridge from `compute` to the levels spine, for duplicate-free inputs. -/
theorem compute_adjacent_lv (cal : Calculator) (dates : List Date) (init : Option ℚ)
    (st : IndexState) (h : compute cal dates init = Except.ok st)
    (hnd : (List.insertionSort (· ≤ ·) dates).Nodup) :
    ∀ a b, AdjIn (mkeys st.quantities) a b →
      ∃ (la : ℚ) (qa qb : CMap) (cache cache' : PriceCache) (lb : ℚ) (wb : CMap),
        CacheWF cal cache ∧
        mget st.levels a = some la ∧ mget st.quantities a = some qa ∧
        mget st.levels b = some lb ∧ mget st.quantities b = some qb ∧
        step cal a b la qa cache = Except.ok (lb, qb, wb, cache') := by
  unfold compute at h
  rcases hsd : List.insertionSort (· ≤ ·) dates with _ | ⟨t0, rest⟩
  · rw [hsd] at h; cases h
  · rw [hsd] at h
    dsimp only at h
    rcases hgp : getPrices cal t0 (mkeys (normalize (cal.cpw t0))) [] with e | ⟨p0, cache0⟩
    · rw [hgp] at h; cases h
    · rw [hgp] at h
      dsimp only at h
      have hwf0 : CacheWF cal cache0 :=
        (getPrices_ok cal t0 (mkeys (normalize (cal.cpw t0))) [] p0 cache0
          (cacheWF_nil cal) hgp).2
      have hsorted : List.Sorted (· ≤ ·) (t0 :: rest) := by
        rw [← hsd]
        exact List.sorted_insertionSort (· ≤ ·) dates
      have hsortedLT : List.Sorted (· < ·) (t0 :: rest) := by
        refine List.Sorted.lt_of_le hsorted ?_
        rw [← hsd]
        exact hnd
      intro a b hadj
      refine runSteps_adjacent_lv cal rest t0 _ _ _ st h hsortedLT hwf0
        (by simp [mget]) (by simp [mget]) ?_ a b hadj ?_
      · intro d hd
        simp only [mkeys, List.map_cons, List.map_nil, List.mem_singleton] at hd
        exact le_of_eq hd
      · have hkeys := runSteps_keys_mem cal rest t0 _ _ _ st h a
        rcases hkeys.mp hadj.1 with h1 | h1
        · simp only [mkeys, List.map_cons, List.map_nil, List.mem_singleton] at h1
          exact le_of_eq h1.symm
        · exact (List.sorted_cons.mp hsorted).1 a h1

/-- In the quantity map recorded by a reconstitution, a commodity the CODE
treats as disrupted keeps its previous quantity exactly. -/
theorem reconQuantities_disrupted (cal : Calculator) (a b : Date) (q : CMap)
    (c : CommodityId) (hmde : cal.mde b c = true)
    (hck : c ∈ mkeys (normalize (cal.cpw a)) ∨ c ∈ mkeys (normalize (cal.cpw b))) :
    mgetD (reconQuantities cal a b q) c 0 = mgetD q c 0 := by
  have hcd : c ∈ reconDisrupted cal a b := by
    unfold reconDisrupted
    rw [List.mem_filter]
    exact ⟨(mem_unionList _ _ _).mpr hck, hmde⟩
  unfold reconQuantities mgetD
  rw [mget_append, mget_mapSelf, if_pos hcd]
  rfl

/-- In the quantity map recorded by a reconstitution, a commodity the CODE
treats as non-disrupted receives the target-share allocation `reconQty`. -/
theorem reconQuantities_nonDisrupted (cal : Calculator) (a b : Date) (q : CMap)
    (c : CommodityId) (hc : c ∈ reconNonDisrupted cal a b q) :
    mgetD (reconQuantities cal a b q) c 0 = reconQty cal a b q c := by
  have hnd : c ∉ reconDisrupted cal a b := by
    unfold reconNonDisrupted at hc
    rw [List.mem_filter] at hc
    exact of_decide_eq_true hc.2
  unfold reconQuantities mgetD
  rw [mget_append, mget_mapSelf, if_neg hnd, mget_mapSelf, if_pos hc]
  rfl

/-! ### Reported weights (claim C5) -/

theorem step_ok_weights (cal : Calculator) (a b : Date) (level : ℚ) (q : CMap)
    (cache : PriceCache) (lv : ℚ) (qt wt : CMap) (cache' : PriceCache)
    (h : step cal a b level q cache = Except.ok (lv, qt, wt, cache')) :
    ∃ qq pp, wt = weightsFromQuantities qq pp := by
  unfold step at h
  rcases hgp : getPrices cal a (mkeys q) cache with e | ⟨p_prev, cache1⟩
  · rw [hgp] at h; cases h
  · rw [hgp] at h
    dsimp only at h
    rcases hge : getEffPrices cal b p_prev (mkeys q) cache1 with e | ⟨p_eff, cache2⟩
    · rw [hge] at h; cases h
    · rw [hge] at h
      dsimp only at h
      rcases hta : trAdjust cal a _ with e | l2
      · rw [hta] at h
        cases h
      · rw [hta] at h
        dsimp only at h
        simp only [Except.ok.injEq, Prod.mk.injEq] at h
        obtain ⟨_, _, h3, _⟩ := h
        exact ⟨_, p_eff, h3.symm⟩

theorem sumVals_map_pair {α : Type} (l : List (α × ℚ)) (g : α × ℚ → ℚ) :
    sumVals (l.map (fun p => (p.1, g p))) = (l.map g).sum := by
  unfold sumVals
  rw [List.map_map]
  rfl

/-- `_weights_from_quantities` output invariant: the values sum to exactly 1,
or are all zero. -/
theorem weightsFromQuantities_prop (qs ps : CMap) :
    sumVals (weightsFromQuantities qs ps) = 1 ∨
      ∀ p ∈ weightsFromQuantities qs ps, p.2 = 0 := by
  unfold weightsFromQuantities
  by_cases hT : sumVals (valueMap qs ps) ≤ 0
  · rw [if_pos hT]
    refine Or.inr ?_
    intro p hp
    rcases List.mem_map.mp hp with ⟨y, _, hy⟩
    rw [← hy]
  · rw [if_neg hT]
    refine Or.inl ?_
    rw [sumVals_map_pair]
    have : (List.map (fun p => p.2 / sumVals (valueMap qs ps)) (valueMap qs ps)).sum =
        sumVals (valueMap qs ps) / sumVals (valueMap qs ps) := by
      have h2 := sumOver_div (valueMap qs ps) (fun p => p.2) (sumVals (valueMap qs ps))
      unfold sumOver at h2
      rw [h2]
      rfl
    rw [this]
    exact div_self (ne_of_gt (not_le.mp hT))

/-- The zero-valuation branch of `_weights_from_quantities`. -/
theorem weightsFromQuantities_zero (qs ps : CMap)
    (h : sumVals (valueMap qs ps) = 0) :
    ∀ p ∈ weightsFromQuantities qs ps, p.2 = 0 := by
  unfold weightsFromQuantities
  rw [if_pos (le_of_eq h)]
  intro p hp
  rcases List.mem_map.mp hp with ⟨y, _, hy⟩
  rw [← hy]

theorem runSteps_weights_inv (cal : Calculator) :
    ∀ (rest : List Date) (t_prev : Date) (level : ℚ) (q : CMap) (st st' : IndexState),
    runSteps cal rest t_prev level q st = Except.ok st' →
    (∀ d w, mget st.weights d = some w → ∃ qq pp, w = weightsFromQuantities qq pp) →
    ∀ d w, mget st'.weights d = some w → ∃ qq pp, w = weightsFromQuantities qq pp := by
  intro rest
  induction rest with
  | nil =>
    intro t_prev level q st st' h hst d w hw
    unfold runSteps at h
    injection h with h1
    rw [← h1] at hw
    exact hst d w hw
  | cons t rest' ih =>
    intro t_prev level q st st' h hst d w hw
    unfold runSteps at h
    rcases hs : step cal t_prev t level q st.price_cache with e | ⟨lv, qt, wt, cache⟩
    · rw [hs] at h; cases h
    · rw [hs] at h
      dsimp only at h
      refine ih t lv qt _ st' h ?_ d w hw
      intro d2 w2 hw2
      dsimp only at hw2
      by_cases hd : d2 = t
      · rw [hd, mget_mset_self] at hw2
        injection hw2 with hww
        rw [← hww]
        exact step_ok_weights cal t_prev t level q st.price_cache lv qt wt cache hs
      · rw [mget_mset_ne _ _ _ _ hd] at hw2
        exact hst d2 w2 hw2

/-! ### Date keys (claim C6) -/

theorem runSteps_keys3 (cal : Calculator) :
    ∀ (rest : List Date) (t_prev : Date) (level : ℚ) (q : CMap) (st st' : IndexState),
    runSteps cal rest t_prev level q st = Except.ok st' →
    List.Sorted (· ≤ ·) (t_prev :: rest) →
    mkeys st.levels = mkeys st.weights →
    mkeys st.levels = mkeys st.quantities →
    List.Sorted (· < ·) (mkeys st.levels) →
    (∀ d ∈ mkeys st.levels, d ≤ t_prev) →
    mkeys st'.levels = mkeys st'.weights ∧ mkeys st'.levels = mkeys st'.quantities ∧
    List.Sorted (· < ·) (mkeys st'.levels) ∧
    (∀ d, d ∈ mkeys st'.levels ↔ d ∈ mkeys st.levels ∨ d ∈ rest) := by
  intro rest
  induction rest with
  | nil =>
    intro t_prev level q st st' h _ h1 h2 h3 _
    unfold runSteps at h
    injection h with hh
    subst hh
    exact ⟨h1, h2, h3, fun d => by simp⟩
  | cons t rest' ih =>
    intro t_prev level q st st' h hsort h1 h2 h3 hbound
    unfold runSteps at h
    rcases hs : step cal t_prev t level q st.price_cache with e | ⟨lv, qt, wt, cache⟩
    · rw [hs] at h; cases h
    · rw [hs] at h
      dsimp only at h
      have h_tp_t : t_prev ≤ t := (List.sorted_cons.mp hsort).1 t (List.mem_cons_self _ _)
      have hk1 : mkeys (mset st.levels t lv) = mkeys (mset st.weights t wt) := by
        rw [mkeys_mset, mkeys_mset, h1]
      have hk2 : mkeys (mset st.levels t lv) = mkeys (mset st.quantities t qt) := by
        rw [mkeys_mset, mkeys_mset, h2]
      have hknew : mkeys (mset st.levels t lv) =
          if t ∈ mkeys st.levels then mkeys st.levels else mkeys st.levels ++ [t] :=
        mkeys_mset _ _ _
      have hsort1 : List.Sorted (· < ·) (mkeys (mset st.levels t lv)) := by
        rw [hknew]
        by_cases ht : t ∈ mkeys st.levels
        · rw [if_pos ht]
          exact h3
        · rw [if_neg ht]
          unfold List.Sorted at h3 ⊢
          rw [List.pairwise_append]
          refine ⟨h3, List.pairwise_singleton _ _, ?_⟩
          intro d hd b hb
          rw [List.mem_singleton] at hb
          subst hb
          exact lt_of_le_of_ne (le_trans (hbound d hd) h_tp_t)
            (fun hh => ht (hh ▸ hd))
      have hbound1 : ∀ d ∈ mkeys (mset st.levels t lv), d ≤ t := by
        intro d hd
        rcases (mem_mkeys_mset _ _ _ _).mp hd with hd1 | hd1
        · exact le_trans (hbound d hd1) h_tp_t
        · exact le_of_eq hd1
      have hres := ih t lv qt _ st' h (List.sorted_cons.mp hsort).2 hk1 hk2 hsort1 hbound1
      refine ⟨hres.1, hres.2.1, hres.2.2.1, ?_⟩
      intro d
      rw [hres.2.2.2 d]
      dsimp only
      rw [mem_mkeys_mset]
      constructor
      · rintro ((hd | hd) | hd)
        · exact Or.inl hd
        · exact Or.inr (by rw [hd]; exact List.mem_cons_self _ _)
        · exact Or.inr (List.mem_cons_of_mem _ hd)
      · rintro (hd | hd)
        · exact Or.inl (Or.inl hd)
        · rcases List.mem_cons.mp hd with hd1 | hd1
          · exact Or.inl (Or.inr hd1)
          · exact Or.inr hd1

/-! ### Totality of the run under a total price provider (claim C7) -/

theorem getPrice_total (cal : Calculator)
    (hp : ∀ d c, ∃ v, cal.price d c = Except.ok v) (cache : PriceCache) (d : Date)
    (c : CommodityId) : ∃ v cache', getPrice cal cache d c = Except.ok (v, cache') := by
  unfold getPrice
  rcases hm : mget cache (d, c) with _ | v0
  · obtain ⟨v, hv⟩ := hp d c
    rw [hv]
    exact ⟨v, mset cache (d, c) v, rfl⟩
  · exact ⟨v0, cache, rfl⟩

theorem getPrices_total (cal : Calculator)
    (hp : ∀ d c, ∃ v, cal.price d c = Except.ok v) (d : Date) :
    ∀ (cs : List CommodityId) (cache : PriceCache),
    ∃ m cache', getPrices cal d cs cache = Except.ok (m, cache') := by
  intro cs
  induction cs with
  | nil =>
    intro cache
    exact ⟨[], cache, rfl⟩
  | cons c rest ih =>
    intro cache
    obtain ⟨v, cache1, hv⟩ := getPrice_total cal hp cache d c
    obtain ⟨m, cache2, hm⟩ := ih cache1
    refine ⟨(c, v) :: m, cache2, ?_⟩
    unfold getPrices
    rw [hv]
    dsimp only
    rw [hm]

theorem getEffPrices_total (cal : Calculator)
    (hp : ∀ d c, ∃ v, cal.price d c = Except.ok v) (t : Date) (pprev : CMap) :
    ∀ (cs : List CommodityId) (cache : PriceCache),
    ∃ m cache', getEffPrices cal t pprev cs cache = Except.ok (m, cache') := by
  intro cs
  induction cs with
  | nil =>
    intro cache
    exact ⟨[], cache, rfl⟩
  | cons c rest ih =>
    intro cache
    obtain ⟨v, cache1, hv⟩ := getPrice_total cal hp cache t c
    obtain ⟨m, cache2, hm⟩ := ih cache1
    refine ⟨(c, if cal.mde t c then mgetD pprev c 0 else v) :: m, cache2, ?_⟩
    unfold getEffPrices
    rw [hv]
    dsimp only
    rw [hm]

theorem step_total (cal : Calculator)
    (hp : ∀ d c, ∃ v, cal.price d c = Except.ok v)
    (hmode : cal.config.mode = IndexMode.EXCESS_RETURN ∨ cal.collateral_rate ≠ none)
    (a b : Date) (level : ℚ) (q : CMap) (cache : PriceCache) :
    ∃ r, step cal a b level q cache = Except.ok r := by
  obtain ⟨p_prev, cache1, hgp⟩ := getPrices_total cal hp a (mkeys q) cache
  obtain ⟨p_eff, cache2, hge⟩ := getEffPrices_total cal hp b p_prev (mkeys q) cache1
  unfold step
  rw [hgp]
  dsimp only
  rw [hge]
  dsimp only
  have hta : ∃ l2, trAdjust cal a
      (level * (1 + if sumOver (mkeys q) (fun c => mgetD q c 0 * mgetD p_prev c 0) ≤ 0
        then 0
        else sumOver (mkeys q) (fun c => mgetD q c 0 * mgetD p_eff c 0) /
          sumOver (mkeys q) (fun c => mgetD q c 0 * mgetD p_prev c 0) - 1)) =
      Except.ok l2 := by
    unfold trAdjust
    rcases hm : cal.config.mode with _ | _
    · exact ⟨_, rfl⟩
    · rcases hcr : cal.collateral_rate with _ | f
      · rcases hmode with hmode | hmode
        · rw [hm] at hmode; cases hmode
        · exact absurd hcr hmode
      · exact ⟨_, rfl⟩
  obtain ⟨l2, hl2⟩ := hta
  rw [hl2]
  exact ⟨_, rfl⟩

theorem step_tr_none (cal : Calculator)
    (hp : ∀ d c, ∃ v, cal.price d c = Except.ok v)
    (hTR : cal.config.mode = IndexMode.TOTAL_RETURN) (hnone : cal.collateral_rate = none)
    (a b : Date) (level : ℚ) (q : CMap) (cache : PriceCache) :
    step cal a b level q cache = Except.error CalcError.trNeedsCollateral := by
  obtain ⟨p_prev, cache1, hgp⟩ := getPrices_total cal hp a (mkeys q) cache
  obtain ⟨p_eff, cache2, hge⟩ := getEffPrices_total cal hp b p_prev (mkeys q) cache1
  unfold step
  rw [hgp]
  dsimp only
  rw [hge]
  dsimp only
  have hta : trAdjust cal a
      (level * (1 + if sumOver (mkeys q) (fun c => mgetD q c 0 * mgetD p_prev c 0) ≤ 0
        then 0
        else sumOver (mkeys q) (fun c => mgetD q c 0 * mgetD p_eff c 0) /
          sumOver (mkeys q) (fun c => mgetD q c 0 * mgetD p_prev c 0) - 1)) =
      Except.error CalcError.trNeedsCollateral := by
    unfold trAdjust
    rw [hTR, hnone]
  rw [hta]

theorem runSteps_total (cal : Calculator)
    (hp : ∀ d c, ∃ v, cal.price d c = Except.ok v)
    (hmode : cal.config.mode = IndexMode.EXCESS_RETURN ∨ cal.collateral_rate ≠ none) :
    ∀ (rest : List Date) (t_prev : Date) (level : ℚ) (q : CMap) (st : IndexState),
    ∃ st', runSteps cal rest t_prev level q st = Except.ok st' := by
  intro rest
  induction rest with
  | nil =>
    intro t_prev level q st
    exact ⟨st, rfl⟩
  | cons t rest' ih =>
    intro t_prev level q st
    obtain ⟨⟨lv, qt, wt, cache⟩, hr⟩ := step_total cal hp hmode t_prev t level q st.price_cache
    obtain ⟨st', hst'⟩ := ih t lv qt
      { levels := mset st.levels t lv
        weights := mset st.weights t wt
        quantities := mset st.quantities t qt
        price_cache := cache }
    refine ⟨st', ?_⟩
    unfold runSteps
    rw [hr]
    dsimp only
    exact hst'

/-! ### Scenario B: TOTAL_RETURN accrual at flat prices (claim C3) -/

theorem scStep (a b : Date) (level : ℚ) (q : CMap) (cache : PriceCache)
    (hwf : CacheWF scTRCal cache) :
    ∃ (w : CMap) (cache' : PriceCache),
      step scTRCal a b level q cache = Except.ok (level * (10001/10000), q, w, cache') ∧
      CacheWF scTRCal cache' := by
  have hp : ∀ (d : Date) (c : CommodityId), ∃ v, scTRCal.price d c = Except.ok v :=
    fun _ _ => ⟨1, rfl⟩
  obtain ⟨p_prev, cache1, hgp⟩ := getPrices_total scTRCal hp a (mkeys q) cache
  have hchar := getPrices_ok scTRCal a (mkeys q) cache p_prev cache1 hwf hgp
  obtain ⟨p_eff, cache2, hge⟩ := getEffPrices_total scTRCal hp b p_prev (mkeys q) cache1
  have hppD : ∀ c ∈ mkeys q, mgetD p_prev c 0 = priceVal scTRCal a c := by
    intro c hc
    rw [hchar.1, mgetD_mapSelf, if_pos hc]
  have hechar := getEffPrices_ok scTRCal b a p_prev (mkeys q) cache1 p_eff cache2
    hchar.2 hppD hge
  unfold step
  rw [hgp]
  dsimp only
  rw [hge]
  dsimp only
  have hS : sumOver (mkeys q) (fun c => mgetD q c 0 * mgetD p_eff c 0) =
      sumOver (mkeys q) (fun c => mgetD q c 0 * mgetD p_prev c 0) := by
    refine sumOver_congr ?_
    intro c hc
    rw [hechar.1, mgetD_mapSelf, if_pos hc, hppD c hc]
    rfl
  rw [hS]
  have hif : (if sumOver (mkeys q) (fun c => mgetD q c 0 * mgetD p_prev c 0) ≤ 0 then (0:ℚ)
      else sumOver (mkeys q) (fun c => mgetD q c 0 * mgetD p_prev c 0) /
        sumOver (mkeys q) (fun c => mgetD q c 0 * mgetD p_prev c 0) - 1) = 0 := by
    by_cases h0 : sumOver (mkeys q) (fun c => mgetD q c 0 * mgetD p_prev c 0) ≤ 0
    · rw [if_pos h0]
    · rw [if_neg h0, div_self (ne_of_gt (not_le.mp h0)), sub_self]
  rw [hif]
  have htr : trAdjust scTRCal a (level * (1 + 0)) =
      Except.ok (level * (1 + 0) * (1 + 1/10000)) := rfl
  rw [htr]
  dsimp only
  have hclose : mapsClose (normalize (scTRCal.cpw a)) (normalize (scTRCal.cpw b)) = true :=
    mapsClose_refl _
  rw [reconOrCarry_carry _ _ _ _ _ _ hclose]
  refine ⟨weightsFromQuantities q p_eff, cache2, ?_, hechar.2⟩
  have harith : level * (1 + 0) * (1 + 1/10000) = level * (10001/10000) := by norm_num
  rw [harith]

theorem scRun :
    ∀ (rest : List Date) (t_prev : Date) (level : ℚ) (q : CMap) (st : IndexState),
    CacheWF scTRCal st.price_cache →
    ∃ st', runSteps scTRCal rest t_prev level q st = Except.ok st' ∧
      ((rest = [] ∧ st' = st) ∨
        (∃ d, rest.getLast? = some d ∧
          mget st'.levels d = some (level * (10001/10000) ^ rest.length))) := by
  intro rest
  induction rest with
  | nil =>
    intro t_prev level q st _
    exact ⟨st, rfl, Or.inl ⟨rfl, rfl⟩⟩
  | cons t rest' ih =>
    intro t_prev level q st hwf
    obtain ⟨w, cache', hstep, hwf'⟩ := scStep t_prev t level q st.price_cache hwf
    obtain ⟨st', hrun, hcase⟩ := ih t (level * (10001/10000)) q
      { levels := mset st.levels t (level * (10001/10000))
        weights := mset st.weights t w
        quantities := mset st.quantities t q
        price_cache := cache' } hwf'
    refine ⟨st', ?_, ?_⟩
    · unfold runSteps
      rw [hstep]
      dsimp only
      exact hrun
    · refine Or.inr ?_
      rcases hcase with ⟨he, hst⟩ | ⟨d, hd, hlev⟩
      · refine ⟨t, by rw [he]; rfl, ?_⟩
        rw [hst]
        dsimp only
        rw [mget_mset_self]
        rw [he]
        norm_num
      · rcases hre : rest' with _ | ⟨b2, l2⟩
        · rw [hre] at hd
          cases hd
        · refine ⟨d, ?_, ?_⟩
          · rw [List.getLast?_cons_cons, ← hre]
            exact hd
          · rw [← hre, hlev]
            congr 1
            rw [List.length_cons, pow_succ]
            ring

/-! ### Claim theorems -/

/-- C4: if the normalized target weights at two consecutive recorded dates are
equal within 1e-10 on every key (absent keys counting 0), no reconstitution is
triggered and the recorded quantity map carries forward unchanged. -/
theorem C4_buy_and_hold (cal : Calculator) (dates : List Date) (init : Option ℚ)
    (a b : Date)
    (hadj : AdjIn (resQKeys (compute cal dates init)) a b)
    (hclose : mapsClose (normalize (cal.cpw a)) (normalize (cal.cpw b)) = true) :
    resQMap (compute cal dates init) b = resQMap (compute cal dates init) a := by
  rcases hres : compute cal dates init with e | st
  · rw [hres] at hadj
    unfold resQKeys at hadj
    exact absurd hadj.1 (List.not_mem_nil a)
  · rw [hres] at hadj
    unfold resQKeys at hadj
    dsimp only at hadj
    unfold resQMap
    dsimp only
    obtain ⟨la, qa, qb, cache, cache', lb, wb, hwfc, hA, hB, hstep⟩ :=
      compute_adjacent cal dates init st hres a b hadj
    have hmain := step_ok_main cal a b la qa cache lb qb wb cache' hwfc hstep
    rw [hA, hB, hmain.2.1 hclose]

theorem C4_buy_and_hold_witness :
    AdjIn (resQKeys (compute wCal [0, 1] none)) 0 1 ∧
    mapsClose (normalize (wCal.cpw 0)) (normalize (wCal.cpw 1)) = true ∧
    resQMap (compute wCal [0, 1] none) 1 = resQMap (compute wCal [0, 1] none) 0 :=
  ⟨by with_unfolding_all decide, by with_unfolding_all decide,
    C4_buy_and_hold wCal [0, 1] none 0 1 (by with_unfolding_all decide)
      (by with_unfolding_all decide)⟩

/-- C1 (counterexample): commodity B is reported disrupted on the
reconstitution date 2 and is recorded in the quantity map at 2, yet its
quantity is NOT frozen: the code computes its disrupted set only over the CPW
key sets, and B (held, but in neither CPW map) is reset instead. -/
theorem C1_counterexample :
    resOk (compute cexCal [0, 1, 2] none) = true ∧
    cexCal.mde 2 "B" = true ∧
    AdjIn (resQKeys (compute cexCal [0, 1, 2] none)) 1 2 ∧
    mapsClose (normalize (cexCal.cpw 1)) (normalize (cexCal.cpw 2)) = false ∧
    "B" ∈ mkeys (resQ (compute cexCal [0, 1, 2] none) 2) ∧
    mgetD (resQ (compute cexCal [0, 1, 2] none) 2) "B" 0 ≠
      mgetD (resQ (compute cexCal [0, 1, 2] none) 1) "B" 0 := by
  with_unfolding_all decide

/-- C1 (amended): on every recorded date step, a commodity reported disrupted
on the later date KEEPS its previous quantity exactly, PROVIDED it appears
among the keys of the previous or the current normalized target-weight map
(the key-set restriction is what the code's disrupted set actually uses). -/
theorem C1_amended_freeze (cal : Calculator) (dates : List Date) (init : Option ℚ)
    (a b : Date) (c : CommodityId)
    (hadj : AdjIn (resQKeys (compute cal dates init)) a b)
    (hmde : cal.mde b c = true)
    (hck : c ∈ mkeys (normalize (cal.cpw a)) ∨ c ∈ mkeys (normalize (cal.cpw b))) :
    mgetD (resQ (compute cal dates init) b) c 0 =
      mgetD (resQ (compute cal dates init) a) c 0 := by
  rcases hres : compute cal dates init with e | st
  · rw [hres] at hadj
    unfold resQKeys at hadj
    exact absurd hadj.1 (List.not_mem_nil a)
  · rw [hres] at hadj
    unfold resQKeys at hadj
    dsimp only at hadj
    unfold resQ
    dsimp only
    obtain ⟨la, qa, qb, cache, cache', lb, wb, hwfc, hA, hB, hstep⟩ :=
      compute_adjacent cal dates init st hres a b hadj
    rw [hA, hB]
    simp only [Option.getD_some]
    have hmain := step_ok_main cal a b la qa cache lb qb wb cache' hwfc hstep
    rcases hmc : mapsClose (normalize (cal.cpw a)) (normalize (cal.cpw b)) with _ | _
    · rw [hmain.2.2.1 hmc]
      exact reconQuantities_disrupted cal a b qa c hmde hck
    · rw [hmain.2.1 hmc]

theorem C1_amended_freeze_witness :
    AdjIn (resQKeys (compute wFreezeCal [0, 1] none)) 0 1 ∧
    wFreezeCal.mde 1 "B" = true ∧
    "B" ∈ mkeys (normalize (wFreezeCal.cpw 0)) ∧
    mgetD (resQ (compute wFreezeCal [0, 1] none) 1) "B" 0 =
      mgetD (resQ (compute wFreezeCal [0, 1] none) 0) "B" 0 :=
  ⟨by with_unfolding_all decide, by with_unfolding_all decide,
    by with_unfolding_all decide,
    C1_amended_freeze wFreezeCal [0, 1] none 0 1 "B" (by with_unfolding_all decide)
      (by with_unfolding_all decide) (Or.inl (by with_unfolding_all decide))⟩

/-- C2 (counterexample): at the reconstitution date 2 of the `cexCal` run,
commodity A is NOT reported disrupted and lies in the universe, yet its
recorded quantity differs from the claim's formula (which removes the
reported-disrupted holding B from the reallocation notional): the code treats
the held-but-unlisted B as non-disrupted, so A's notional is not reduced. -/
theorem C2_counterexample :
    resOk (compute cexCal [0, 1, 2] none) = true ∧
    cexCal.mde 2 "A" = false ∧
    AdjIn (resQKeys (compute cexCal [0, 1, 2] none)) 1 2 ∧
    mapsClose (normalize (cexCal.cpw 1)) (normalize (cexCal.cpw 2)) = false ∧
    "A" ∈ reconUniverse cexCal 2 (resQ (compute cexCal [0, 1, 2] none) 1) ∧
    mgetD (resQ (compute cexCal [0, 1, 2] none) 2) "A" 0 ≠
      claimQty cexCal 1 2 (resQ (compute cexCal [0, 1, 2] none) 1) "A" := by
  with_unfolding_all decide

/-- C2 (amended): on every recorded reconstitution step, every commodity the
CODE treats as non-disrupted (in the universe but outside the CPW-keyed
disrupted set) receives `target_share * remaining_notional / price_prev` with
a zero price giving zero quantity, where the shares, fixed notional and
remaining notional are computed over the code's disrupted set
(`reconQty`/`reconRemaining`/`reconTarget`), at previous-date prices;
moreover Scenario C holds: weights {A:1} to {A:1/2,B:1/2} with A disrupted
leave A's quantity unchanged, a zero remaining notional, and B at 0. -/
theorem C2_amended_reconstitution :
    (∀ (cal : Calculator) (dates : List Date) (init : Option ℚ) (a b : Date)
      (c : CommodityId),
      AdjIn (resQKeys (compute cal dates init)) a b →
      mapsClose (normalize (cal.cpw a)) (normalize (cal.cpw b)) = false →
      c ∈ reconNonDisrupted cal a b (resQ (compute cal dates init) a) →
      mgetD (resQ (compute cal dates init) b) c 0 =
        reconQty cal a b (resQ (compute cal dates init) a) c) ∧
    (mgetD (resQ (compute scenCCal [0, 1] none) 1) "A" 0 =
        mgetD (resQ (compute scenCCal [0, 1] none) 0) "A" 0 ∧
      reconRemaining scenCCal 0 1 (resQ (compute scenCCal [0, 1] none) 0) = 0 ∧
      mgetD (resQ (compute scenCCal [0, 1] none) 1) "B" 0 = 0) := by
  constructor
  · intro cal dates init a b c hadj hmc hcnd
    rcases hres : compute cal dates init with e | st
    · rw [hres] at hadj
      unfold resQKeys at hadj
      exact absurd hadj.1 (List.not_mem_nil a)
    · rw [hres] at hadj hcnd
      unfold resQKeys at hadj
      dsimp only at hadj
      unfold resQ at hcnd ⊢
      dsimp only at hcnd ⊢
      obtain ⟨la, qa, qb, cache, cache', lb, wb, hwfc, hA, hB, hstep⟩ :=
        compute_adjacent cal dates init st hres a b hadj
      rw [hA] at hcnd
      simp only [Option.getD_some] at hcnd
      rw [hA, hB]
      simp only [Option.getD_some]
      have hmain := step_ok_main cal a b la qa cache lb qb wb cache' hwfc hstep
      rw [hmain.2.2.1 hmc]
      exact reconQuantities_nonDisrupted cal a b qa c hcnd
  · with_unfolding_all decide

theorem C2_amended_reconstitution_witness :
    AdjIn (resQKeys (compute scenCCal [0, 1] none)) 0 1 ∧
    mapsClose (normalize (scenCCal.cpw 0)) (normalize (scenCCal.cpw 1)) = false ∧
    "B" ∈ reconNonDisrupted scenCCal 0 1 (resQ (compute scenCCal [0, 1] none) 0) ∧
    mgetD (resQ (compute scenCCal [0, 1] none) 1) "B" 0 =
      reconQty scenCCal 0 1 (resQ (compute scenCCal [0, 1] none) 0) "B" :=
  ⟨by with_unfolding_all decide, by with_unfolding_all decide,
    by with_unfolding_all decide,
    C2_amended_reconstitution.1 scenCCal [0, 1] none 0 1 "B"
      (by with_unfolding_all decide) (by with_unfolding_all decide)
      (by with_unfolding_all decide)⟩

/-- C3: every successful date step multiplies the level by
`1 + er_return` — with `er_return = value_t/value_prev - 1` valued at
effective (disruption-frozen) prices and `0` whenever `value_prev ≤ 0` — and
by `1 + collateral_rate(t_prev)` in TOTAL_RETURN mode; for duplicate-free
date sequences the recorded level at each date equals the recorded level at
the previous date times those factors; and in TOTAL_RETURN mode with flat
prices, no disruption and constant collateral rate 1/10000, the level
recorded at the last date equals `100 * (1.0001)^n` after `n` day steps. -/
theorem C3_level_recursion :
    (∀ (cal : Calculator) (a b : Date) (level : ℚ) (q : CMap) (cache : PriceCache)
      (lv : ℚ) (qt wt : CMap) (cache' : PriceCache),
      CacheWF cal cache →
      step cal a b level q cache = Except.ok (lv, qt, wt, cache') →
      lv = level * (1 + specERReturn cal a b q) * specCollFactor cal a) ∧
    (∀ (cal : Calculator) (dates : List Date) (init : Option ℚ) (a b : Date) (la : ℚ),
      (List.insertionSort (· ≤ ·) dates).Nodup →
      AdjIn (resQKeys (compute cal dates init)) a b →
      resLevel (compute cal dates init) a = some la →
      resLevel (compute cal dates init) b =
        some (la * (1 + specERReturn cal a b (resQ (compute cal dates init) a)) *
          specCollFactor cal a)) ∧
    (∀ (dates : List Date) (d : Date),
      (List.insertionSort (· ≤ ·) dates).getLast? = some d →
      resOk (compute scTRCal dates none) = true ∧
      resLevel (compute scTRCal dates none) d =
        some (100 * (10001/10000) ^ (dates.length - 1))) := by
  refine ⟨?_, ?_, ?_⟩
  · intro cal a b level q cache lv qt wt cache' hwf h
    exact (step_ok_main cal a b level q cache lv qt wt cache' hwf h).1
  · intro cal dates init a b la hnd hadj hla
    rcases hres : compute cal dates init with e | st
    · rw [hres] at hadj
      unfold resQKeys at hadj
      exact absurd hadj.1 (List.not_mem_nil a)
    · rw [hres] at hadj hla
      unfold resQKeys at hadj
      dsimp only at hadj
      unfold resLevel at hla ⊢
      dsimp only at hla ⊢
      unfold resQ
      dsimp only
      obtain ⟨la2, qa, qb, cache, cache', lb, wb, hwfc, hLA, hQA, hLB, hQB, hstep⟩ :=
        compute_adjacent_lv cal dates init st hres hnd a b hadj
      rw [hLA] at hla
      injection hla with hla2
      rw [hQA]
      simp only [Option.getD_some]
      rw [hLB]
      have hmain := step_ok_main cal a b la2 qa cache lb qb wb cache' hwfc hstep
      rw [hmain.1, hla2]
  · intro dates d hlast
    rcases hsd : List.insertionSort (· ≤ ·) dates with _ | ⟨t0, rest⟩
    · rw [hsd] at hlast
      cases hlast
    · rw [hsd] at hlast
      have hlen : dates.length = rest.length + 1 := by
        have hl := List.length_insertionSort (· ≤ ·) dates
        rw [hsd] at hl
        rw [← hl]
        rfl
      unfold compute
      rw [hsd]
      dsimp only
      obtain ⟨p0, cache0, hgp⟩ := getPrices_total scTRCal (fun _ _ => ⟨1, rfl⟩) t0
        (mkeys (normalize (scTRCal.cpw t0))) []
      rw [hgp]
      dsimp only
      have hwf0 : CacheWF scTRCal cache0 :=
        (getPrices_ok scTRCal t0 (mkeys (normalize (scTRCal.cpw t0))) [] p0 cache0
          (cacheWF_nil _) hgp).2
      obtain ⟨st', hrun, hcase⟩ := scRun rest t0 (initLevel none scTRCal.config.start_level)
        ((normalize (scTRCal.cpw t0)).map (fun p =>
          (p.1, if mgetD p0 p.1 0 = 0 then 0
            else p.2 * initLevel none scTRCal.config.start_level / mgetD p0 p.1 0)))
        { levels := [(t0, initLevel none scTRCal.config.start_level)]
          weights := [(t0, weightsFromQuantities
            ((normalize (scTRCal.cpw t0)).map (fun p =>
              (p.1, if mgetD p0 p.1 0 = 0 then 0
                else p.2 * initLevel none scTRCal.config.start_level / mgetD p0 p.1 0))) p0)]
          quantities := [(t0, (normalize (scTRCal.cpw t0)).map (fun p =>
            (p.1, if mgetD p0 p.1 0 = 0 then 0
              else p.2 * initLevel none scTRCal.config.start_level / mgetD p0 p.1 0)))]
          price_cache := cache0 } hwf0
      rw [hrun]
      rcases hcase with ⟨he, hst⟩ | ⟨d', hd', hlev⟩
      · subst he
        have hd : d = t0 := by
          rw [show ([t0] : List Date).getLast? = some t0 from rfl] at hlast
          injection hlast with hh
          exact hh.symm
        subst hd
        refine ⟨rfl, ?_⟩
        rw [hst]
        unfold resLevel
        dsimp only
        rw [show mget [(d, initLevel none scTRCal.config.start_level)] d =
          some (initLevel none scTRCal.config.start_level) from by simp [mget]]
        rw [hlen]
        norm_num
        rfl
      · rcases hre : rest with _ | ⟨r1, rl⟩
        · rw [hre] at hd'
          cases hd'
        · have hdd : d = d' := by
            rw [hre, List.getLast?_cons_cons, ← hre, hd'] at hlast
            injection hlast with hh
            exact hh.symm
          subst hdd
          refine ⟨rfl, ?_⟩
          unfold resLevel
          dsimp only
          rw [hlev, hlen]
          have : (initLevel none scTRCal.config.start_level) = 100 := rfl
          rw [this]
          rfl

theorem C3_level_recursion_witness :
    CacheWF wCal [] ∧
    step wCal 0 1 100 [("A", 1)] [] =
      Except.ok (100, [("A", 1)], [("A", 1)], [((0, "A"), 2), ((1, "A"), 2)]) ∧
    ((100 : ℚ), ([("A", 1)] : CMap), ([("A", 1)] : CMap),
        ([((0, "A"), 2), ((1, "A"), 2)] : PriceCache)).1 =
      100 * (1 + specERReturn wCal 0 1 [("A", 1)]) * specCollFactor wCal 0 ∧
    (List.insertionSort (· ≤ ·) [(0 : Date), 1]).Nodup ∧
    AdjIn (resQKeys (compute wCal [0, 1] none)) 0 1 ∧
    resLevel (compute wCal [0, 1] none) 0 = some 100 ∧
    resLevel (compute wCal [0, 1] none) 1 =
      some (100 * (1 + specERReturn wCal 0 1 (resQ (compute wCal [0, 1] none) 0)) *
        specCollFactor wCal 0) ∧
    (List.insertionSort (· ≤ ·) [(0 : Date), 1, 2]).getLast? = some 2 ∧
    resOk (compute scTRCal [0, 1, 2] none) = true ∧
    resLevel (compute scTRCal [0, 1, 2] none) 2 =
      some (100 * (10001/10000) ^ ([(0 : Date), 1, 2].length - 1)) :=
  ⟨by with_unfolding_all decide, by with_unfolding_all decide,
    C3_level_recursion.1 wCal 0 1 100 [("A", 1)] []
      (100, [("A", 1)], [("A", 1)], [((0, "A"), 2), ((1, "A"), 2)]).1
      [("A", 1)] [("A", 1)] [((0, "A"), 2), ((1, "A"), 2)]
      (by with_unfolding_all decide) (by with_unfolding_all decide),
    by with_unfolding_all decide, by with_unfolding_all decide,
    by with_unfolding_all decide,
    C3_level_recursion.2.1 wCal [0, 1] none 0 1 100 (by with_unfolding_all decide)
      (by with_unfolding_all decide) (by with_unfolding_all decide),
    by with_unfolding_all decide,
    (C3_level_recursion.2.2 [0, 1, 2] 2 (by with_unfolding_all decide)).1,
    (C3_level_recursion.2.2 [0, 1, 2] 2 (by with_unfolding_all decide)).2⟩

/-- C5: every weight map recorded by a successful run sums to 1 within 1e-9
(exactly 1 in this rational model) or consists entirely of zeros; and whenever
the portfolio valuation used for reporting is 0, the recorded map is the
all-zero one. -/
theorem C5_weight_sums :
    (∀ (cal : Calculator) (dates : List Date) (init : Option ℚ) (d : Date) (w : CMap),
      resWMap (compute cal dates init) d = some w →
      |sumVals w - 1| ≤ 1/10^9 ∨ ∀ p ∈ w, p.2 = 0) ∧
    (∀ qs ps : CMap, sumVals (valueMap qs ps) = 0 →
      ∀ p ∈ weightsFromQuantities qs ps, p.2 = 0) := by
  constructor
  · intro cal dates init d w hw
    rcases hres : compute cal dates init with e | st
    · rw [hres] at hw
      unfold resWMap at hw
      cases hw
    · rw [hres] at hw
      unfold resWMap at hw
      dsimp only at hw
      have himg : ∃ qq pp, w = weightsFromQuantities qq pp := by
        unfold compute at hres
        rcases hsd : List.insertionSort (· ≤ ·) dates with _ | ⟨t0, rest⟩
        · rw [hsd] at hres; cases hres
        · rw [hsd] at hres
          dsimp only at hres
          rcases hgp : getPrices cal t0 (mkeys (normalize (cal.cpw t0))) [] with e | ⟨p0, c0⟩
          · rw [hgp] at hres; cases hres
          · rw [hgp] at hres
            dsimp only at hres
            refine runSteps_weights_inv cal rest t0 _ _ _ st hres ?_ d w hw
            intro d2 w2 hw2
            dsimp only at hw2
            unfold mget at hw2
            by_cases hd2 : t0 = d2
            · rw [if_pos hd2] at hw2
              injection hw2 with hww
              exact ⟨_, _, hww.symm⟩
            · rw [if_neg hd2] at hw2
              cases hw2
      obtain ⟨qq, pp, hwq⟩ := himg
      rcases weightsFromQuantities_prop qq pp with h1 | h1
      · refine Or.inl ?_
        rw [hwq, h1]
        norm_num
      · exact Or.inr (hwq ▸ h1)
  · exact weightsFromQuantities_zero

theorem C5_weight_sums_witness :
    resWMap (compute wCal [0] none) 0 = some [("A", 1/2), ("B", 1/2)] ∧
    (|sumVals [("A", (1:ℚ)/2), ("B", 1/2)] - 1| ≤ 1/10^9 ∨
      ∀ p ∈ [("A", (1:ℚ)/2), ("B", 1/2)], p.2 = 0) ∧
    sumVals (valueMap [] []) = 0 ∧
    (∀ p ∈ weightsFromQuantities [] [], p.2 = 0) :=
  ⟨by with_unfolding_all decide,
    C5_weight_sums.1 wCal [0] none 0 [("A", 1/2), ("B", 1/2)]
      (by with_unfolding_all decide),
    by with_unfolding_all decide,
    C5_weight_sums.2 [] [] (by with_unfolding_all decide)⟩

/-- C6: after a successful run the three date-keyed maps share one key list,
which is strictly increasing and has exactly the members of the input date
list — i.e. it is the ascending de-duplicated set of the input dates,
whatever their order and multiplicities. -/
theorem C6_date_keys (cal : Calculator) (dates : List Date) (init : Option ℚ)
    (hok : resOk (compute cal dates init) = true) :
    resLKeys (compute cal dates init) = resWKeys (compute cal dates init) ∧
    resLKeys (compute cal dates init) = resQKeys (compute cal dates init) ∧
    List.Sorted (· < ·) (resLKeys (compute cal dates init)) ∧
    (∀ d ∈ resLKeys (compute cal dates init), d ∈ dates) ∧
    (∀ d ∈ dates, d ∈ resLKeys (compute cal dates init)) := by
  rcases hres : compute cal dates init with e | st
  · rw [hres] at hok
    unfold resOk at hok
    cases hok
  · unfold resLKeys resWKeys resQKeys
    dsimp only
    unfold compute at hres
    rcases hsd : List.insertionSort (· ≤ ·) dates with _ | ⟨t0, rest⟩
    · rw [hsd] at hres; cases hres
    · rw [hsd] at hres
      dsimp only at hres
      rcases hgp : getPrices cal t0 (mkeys (normalize (cal.cpw t0))) [] with e | ⟨p0, c0⟩
      · rw [hgp] at hres; cases hres
      · rw [hgp] at hres
        dsimp only at hres
        have hsorted : List.Sorted (· ≤ ·) (t0 :: rest) := by
          rw [← hsd]
          exact List.sorted_insertionSort (· ≤ ·) dates
        have hkeys := runSteps_keys3 cal rest t0 _ _ _ st hres hsorted rfl rfl
          (List.sorted_singleton t0)
          (fun d hd => le_of_eq (List.mem_singleton.mp hd))
        refine ⟨hkeys.1, hkeys.2.1, hkeys.2.2.1, ?_, ?_⟩
        · intro d hd
          rcases (hkeys.2.2.2 d).mp hd with h1 | h1
          · have : d = t0 := List.mem_singleton.mp h1
            rw [← List.mem_insertionSort (· ≤ ·), hsd, this]
            exact List.mem_cons_self _ _
          · rw [← List.mem_insertionSort (· ≤ ·), hsd]
            exact List.mem_cons_of_mem _ h1
        · intro d hd
          rw [← List.mem_insertionSort (· ≤ ·), hsd] at hd
          refine (hkeys.2.2.2 d).mpr ?_
          rcases List.mem_cons.mp hd with h1 | h1
          · exact Or.inl (List.mem_singleton.mpr h1)
          · exact Or.inr h1

theorem C6_date_keys_witness :
    resOk (compute wCal [3, 0, 3, 1] none) = true ∧
    (resLKeys (compute wCal [3, 0, 3, 1] none) = resWKeys (compute wCal [3, 0, 3, 1] none) ∧
      resLKeys (compute wCal [3, 0, 3, 1] none) = resQKeys (compute wCal [3, 0, 3, 1] none) ∧
      List.Sorted (· < ·) (resLKeys (compute wCal [3, 0, 3, 1] none)) ∧
      (∀ d ∈ resLKeys (compute wCal [3, 0, 3, 1] none), d ∈ [(3 : Date), 0, 3, 1]) ∧
      (∀ d ∈ [(3 : Date), 0, 3, 1], d ∈ resLKeys (compute wCal [3, 0, 3, 1] none))) :=
  ⟨by with_unfolding_all decide,
    C6_date_keys wCal [3, 0, 3, 1] none (by with_unfolding_all decide)⟩

/-- C7: with a price provider that never raises, `compute` raises exactly in
the two fatal cases — an empty date sequence (ValueError before any work),
and TOTAL_RETURN mode without a collateral provider, raised on the first date
step that needs an accrual (so a run whose sorted date list has a single
entry, needing no accrual, succeeds even then). -/
theorem C7_fatal_errors (cal : Calculator) (dates : List Date) (init : Option ℚ)
    (hp : ∀ d c, ∃ v, cal.price d c = Except.ok v) :
    (dates = [] → compute cal dates init = Except.error CalcError.emptyDates) ∧
    (cal.config.mode = IndexMode.TOTAL_RETURN → cal.collateral_rate = none →
      2 ≤ dates.length → compute cal dates init = Except.error CalcError.trNeedsCollateral) ∧
    (dates ≠ [] →
      (cal.config.mode = IndexMode.EXCESS_RETURN ∨ cal.collateral_rate ≠ none ∨
        dates.length = 1) →
      resOk (compute cal dates init) = true) := by
  refine ⟨?_, ?_, ?_⟩
  · intro he
    rw [he]
    rfl
  · intro hTR hnone hlen
    unfold compute
    rcases hsd : List.insertionSort (· ≤ ·) dates with _ | ⟨t0, rest⟩
    · exfalso
      have hl := List.length_insertionSort (· ≤ ·) dates
      rw [hsd] at hl
      rw [← hl] at hlen
      exact absurd hlen (by norm_num)
    · rcases hre : rest with _ | ⟨r1, rest'⟩
      · exfalso
        have hl := List.length_insertionSort (· ≤ ·) dates
        rw [hsd, hre] at hl
        rw [← hl] at hlen
        exact absurd hlen (by norm_num)
      · dsimp only
        obtain ⟨p0, cache0, hgp⟩ := getPrices_total cal hp t0
          (mkeys (normalize (cal.cpw t0))) []
        rw [hgp]
        dsimp only
        unfold runSteps
        rw [step_tr_none cal hp hTR hnone t0 r1 _ _ _]
  · intro hne hcond
    rcases hcond with hcond | hcond | hcond
    · unfold compute
      rcases hsd : List.insertionSort (· ≤ ·) dates with _ | ⟨t0, rest⟩
      · exfalso
        have hl := List.length_insertionSort (· ≤ ·) dates
        rw [hsd] at hl
        exact hne (List.length_eq_zero.mp hl.symm)
      · dsimp only
        obtain ⟨p0, cache0, hgp⟩ := getPrices_total cal hp t0
          (mkeys (normalize (cal.cpw t0))) []
        rw [hgp]
        dsimp only
        obtain ⟨st', hst'⟩ := runSteps_total cal hp (Or.inl hcond) rest t0 _ _ _
        rw [hst']
        rfl
    · unfold compute
      rcases hsd : List.insertionSort (· ≤ ·) dates with _ | ⟨t0, rest⟩
      · exfalso
        have hl := List.length_insertionSort (· ≤ ·) dates
        rw [hsd] at hl
        exact hne (List.length_eq_zero.mp hl.symm)
      · dsimp only
        obtain ⟨p0, cache0, hgp⟩ := getPrices_total cal hp t0
          (mkeys (normalize (cal.cpw t0))) []
        rw [hgp]
        dsimp only
        obtain ⟨st', hst'⟩ := runSteps_total cal hp (Or.inr hcond) rest t0 _ _ _
        rw [hst']
        rfl
    · unfold compute
      rcases hsd : List.insertionSort (· ≤ ·) dates with _ | ⟨t0, rest⟩
      · exfalso
        have hl := List.length_insertionSort (· ≤ ·) dates
        rw [hsd] at hl
        exact hne (List.length_eq_zero.mp hl.symm)
      · rcases hre : rest with _ | ⟨r1, rest'⟩
        · dsimp only
          obtain ⟨p0, cache0, hgp⟩ := getPrices_total cal hp t0
            (mkeys (normalize (cal.cpw t0))) []
          rw [hgp]
          dsimp only
          rfl
        · exfalso
          have hl := List.length_insertionSort (· ≤ ·) dates
          rw [hsd, hre] at hl
          rw [hcond] at hl
          simp at hl

theorem C7_fatal_errors_witness :
    compute wCal [] none = Except.error CalcError.emptyDates ∧
    compute trNoCollCal [0, 1] none = Except.error CalcError.trNeedsCollateral ∧
    resOk (compute trNoCollCal [5] none) = true ∧
    resOk (compute wCal [0, 1] none) = true :=
  ⟨(C7_fatal_errors wCal [] none (fun _ _ => ⟨2, rfl⟩)).1 rfl,
    (C7_fatal_errors trNoCollCal [0, 1] none (fun _ _ => ⟨1, rfl⟩)).2.1 rfl rfl
      (by norm_num),
    (C7_fatal_errors trNoCollCal [5] none (fun _ _ => ⟨1, rfl⟩)).2.2
      (by simp) (Or.inr (Or.inr rfl)),
    (C7_fatal_errors wCal [0, 1] none (fun _ _ => ⟨2, rfl⟩)).2.2
      (by simp) (Or.inl rfl)⟩

/-- C8: the safe price lookup never propagates a provider error — under any
well-formed cache, a raising provider yields the sentinel `1.0` and an
unchanged cache, while a succeeding provider yields its (memoized) price. -/
theorem C8_safe_price (cal : Calculator) (cache : PriceCache) (d : Date)
    (c : CommodityId) (hwf : CacheWF cal cache) :
    (∀ e, cal.price d c = Except.error e → safePrice cal cache d c = (1, cache)) ∧
    (∀ v, cal.price d c = Except.ok v → (safePrice cal cache d c).1 = v) := by
  constructor
  · intro e he
    have hm : mget cache (d, c) = none := by
      rcases hm : mget cache (d, c) with _ | v0
      · rfl
      · have := hwf ((d, c), v0) (mget_some_mem _ _ _ hm)
        rw [he] at this
        cases this
    unfold safePrice getPrice
    rw [hm, he]
  · intro v hv
    rw [safePrice_fst cal cache d c hwf]
    unfold priceVal
    rw [hv]

theorem C8_safe_price_witness :
    failCal.price 0 "A" = Except.error "boom" ∧
    safePrice failCal [] 0 "A" = (1, []) ∧
    wCal.price 0 "A" = Except.ok 2 ∧
    (safePrice wCal [] 0 "A").1 = 2 :=
  ⟨rfl,
    (C8_safe_price failCal [] 0 "A" (cacheWF_nil _)).1 "boom" rfl,
    rfl,
    (C8_safe_price wCal [] 0 "A" (cacheWF_nil _)).2 2 rfl⟩

/-- C9: `compute` is a pure function of the providers' input-output behaviour:
two calculators with identical configuration whose providers return identical
outputs on identical arguments produce identical `IndexState` results on the
same date sequence and initial level. -/
theorem C9_deterministic (c1 c2 : Calculator) (dates : List Date) (init : Option ℚ)
    (hcfg : c1.config = c2.config)
    (hcpw : ∀ d, c1.cpw d = c2.cpw d)
    (hprice : ∀ d c, c1.price d c = c2.price d c)
    (hmde : ∀ d c, c1.mde d c = c2.mde d c)
    (hcoll : ∀ d, Option.map (fun f => f d) c1.collateral_rate =
      Option.map (fun f => f d) c2.collateral_rate) :
    compute c1 dates init = compute c2 dates init := by
  have hc : c1 = c2 := by
    obtain ⟨cpw1, price1, mde1, coll1, cfg1⟩ := c1
    obtain ⟨cpw2, price2, mde2, coll2, cfg2⟩ := c2
    dsimp only at hcfg hcpw hprice hmde hcoll
    have h1 : cpw1 = cpw2 := funext hcpw
    have h2 : price1 = price2 := funext (fun d => funext (hprice d))
    have h3 : mde1 = mde2 := funext (fun d => funext (hmde d))
    have h4 : coll1 = coll2 := by
      rcases coll1 with _ | f <;> rcases coll2 with _ | g
      · rfl
      · have hx := hcoll 0
        dsimp only [Option.map] at hx
        cases hx
      · have hx := hcoll 0
        dsimp only [Option.map] at hx
        cases hx
      · have : f = g := by
          funext d
          have hh := hcoll d
          dsimp only [Option.map] at hh
          injection hh
        rw [this]
    rw [h1, h2, h3, h4, hcfg]
  rw [hc]

theorem C9_deterministic_witness :
    compute wCal [0, 1] none = compute wCal [0, 1] none :=
  C9_deterministic wCal wCal [0, 1] none rfl (fun _ => rfl) (fun _ _ => rfl)
    (fun _ _ => rfl) (fun _ => rfl)

/-- C10: a zero `initial_level` is falsy in Python's `or`, so the run starts
from `config.start_level` exactly as when no initial level is supplied; the
explicit argument takes effect only when non-zero. -/
theorem C10_initial_level_falsy :
    (∀ (cal : Calculator) (dates : List Date),
      compute cal dates (some 0) = compute cal dates none) ∧
    (∀ s : ℚ, initLevel (some 0) s = s) ∧
    (∀ s : ℚ, initLevel none s = s) ∧
    (∀ s v : ℚ, v ≠ 0 → initLevel (some v) s = v) := by
  refine ⟨?_, ?_, ?_, ?_⟩
  · intro cal dates
    unfold compute
    rcases hsd : List.insertionSort (· ≤ ·) dates with _ | ⟨t0, rest⟩
    · rfl
    · rw [show initLevel (some 0) cal.config.start_level =
        initLevel none cal.config.start_level from by
          unfold initLevel
          dsimp only
          rw [if_pos rfl]]
  · intro s
    unfold initLevel
    dsimp only
    rw [if_pos rfl]
  · intro s
    rfl
  · intro s v hv
    unfold initLevel
    dsimp only
    rw [if_neg hv]

theorem C10_initial_level_falsy_witness :
    compute wCal [0, 1] (some 0) = compute wCal [0, 1] none ∧
    initLevel (some 0) 100 = 100 ∧
    initLevel none 100 = 100 ∧
    initLevel (some 55) 100 = 55 :=
  ⟨C10_initial_level_falsy.1 wCal [0, 1],
    C10_initial_level_falsy.2.1 100,
    C10_initial_level_falsy.2.2.1 100,
    C10_initial_level_falsy.2.2.2 100 55 (by norm_num)⟩

end GSCI
